import Mathlib

/-!
Shallow embedding of the Continuity2017 consensus election functions
(`src/lib/consensus.js`) and verification of the frozen claims about them.

Events are immutable records; the mutable per-event scratch state the source
attaches to event objects (`_treeParent`, `_generation`, `_votes`,
`_supporting`, `_preCommit`, ...) is modelled by explicit state structures
keyed by `eventHash`.  JavaScript objects are modelled by association lists
that preserve insertion order (updates keep the key position, new keys are
appended), JavaScript `Set`s by first-occurrence-deduplicated lists, and the
source's `while(next.length > 0)` breadth-first loops by fuel-indexed
recursion: the fuel supplied is always enough for the loop to run to its
JavaScript termination point on acyclic snapshots, and every theorem that
needs a completed traversal either supplies sufficient fuel or holds for
every fuel value.
-/

/-- A merge event of the recent-history snapshot.  `treeHash` is `none` when
the event has no tree parent hash (genesis); `parentHash` is the unordered
list of ancestor event hashes.  The `meta.continuity2017.creator` field of the
source is modelled by `creator`. -/
structure Event where
  eventHash : String
  creator : String
  treeHash : Option String
  parentHash : List String
deriving DecidableEq, Repr

/-- JavaScript `Set.add` (and the effect of `_.uniq` accumulation): append the
element unless it is already present, keeping first-occurrence order. -/
def jsAdd {α : Type} [DecidableEq α] (acc : List α) (a : α) : List α :=
  if a ∈ acc then acc else acc ++ [a]

/-- lodash `_.uniq`: deduplicate keeping the first occurrence of each
element. -/
def jsUniq {α : Type} [DecidableEq α] (l : List α) : List α :=
  l.foldl jsAdd []

/-- lodash `_.difference a b`: the elements of `a` that do not occur in
`b`. -/
def jsDifference {α : Type} [DecidableEq α] (a b : List α) : List α :=
  a.filter (fun x => x ∉ b)

/-- Lookup in a JavaScript-object-as-association-list (`obj[k]`). -/
def alookup {β : Type} (l : List (String × β)) (k : String) : Option β :=
  (l.find? (fun p => p.1 == k)).map (·.2)

/-- JavaScript object assignment `obj[k] = v`: updating an existing key keeps
its position, a new key is appended (insertion order iteration). -/
def aset {β : Type} (l : List (String × β)) (k : String) (v : β) :
    List (String × β) :=
  if l.any (fun p => p.1 == k) then
    l.map (fun p => if p.1 == k then (k, v) else p)
  else l ++ [(k, v)]

/-- JavaScript `Object.values` (insertion order). -/
def avalues {β : Type} (l : List (String × β)) : List β :=
  l.map (·.2)

/-- `e._parents`: the snapshot materializes, for every event, the merge-event
parents present in the snapshot (`history` order). -/
def parentsOf (hist : List Event) (e : Event) : List Event :=
  hist.filter (fun p => p.eventHash ∈ e.parentHash)

/-- `twoThirdsMajority` (`consensus.js` line 85): when `electorCount <= 3`
every elector must agree, otherwise `Math.floor(electorCount / 3) * 2 + 1`. -/
def twoThirdsMajority (electorCount : Nat) : Nat :=
  if electorCount ≤ 3 then electorCount else electorCount / 3 * 2 + 1

/-- `e._treeParent` as resolved by `_getElectorBranches` (line 114): the first
parent in `e._parents` whose hash equals `e.event.treeHash`; `none` when the
tree hash is absent or no parent matches (the event is then a branch tail). -/
def treeParent (hist : List Event) (e : Event) : Option Event :=
  match e.treeHash with
  | none => none
  | some t => (parentsOf hist e).find? (fun p => p.eventHash == t)

/-- `e._treeChildren` (line 116): the elector-authored events of the snapshot
whose resolved tree parent is `e`, in history order (the order the source
pushes them). -/
def treeChildren (hist : List Event) (electors : List String) (e : Event) :
    List Event :=
  hist.filter (fun c => c.creator ∈ electors && treeParent hist c == some e)

/-- The branch tails of one elector (line 124): its events in the snapshot
that have no resolved tree parent, in history order. -/
def tailsOf (hist : List Event) (el : String) : List Event :=
  hist.filter (fun e => e.creator == el && (treeParent hist e).isNone)

/-- The keys of the source's `electorTails` map in insertion order: creators
of tail events, in order of their first tail in history. -/
def electorsWithTails (hist : List Event) (electors : List String) :
    List String :=
  jsUniq ((hist.filter
      (fun e => e.creator ∈ electors && (treeParent hist e).isNone)).map
      (·.creator))

/-- `e._generation` computed along the `_treeParent` chain (tails have
generation 1, a tree child has its parent's generation plus one); `none` when
the chain does not reach a tail within the snapshot (the source then leaves
`_generation` unassigned). -/
def genAux (hist : List Event) : Nat → Event → Option Nat
  | 0, _ => none
  | fuel + 1, e =>
    match treeParent hist e with
    | none => some 1
    | some p => (genAux hist fuel p).map (· + 1)

/-- `e._generation` with enough fuel for any acyclic snapshot. -/
def generation (hist : List Event) (e : Event) : Option Nat :=
  genAux hist (hist.length + 1) e

/-- Comparison `a._generation > b._generation` under JavaScript semantics:
any comparison involving `undefined` is false. -/
def genGT (a b : Option Nat) : Bool :=
  match a, b with
  | some x, some y => x > y
  | _, _ => false

/-- Comparison `a._generation >= b._generation` under JavaScript semantics:
any comparison involving `undefined` is false. -/
def genGE (a b : Option Nat) : Bool :=
  match a, b with
  | some x, some y => decide (x ≥ y)
  | _, _ => false

/-- A `descendants` map (`consensus.js` passim): event hash of an ancestor to
the list of immediate descendants-in-path discovered for it. -/
abbrev DMap : Type := List (String × List Event)

/-- One level of `_buildAncestryMap` (line 1139): record each unvisited
event's hash and queue its `_parents`. -/
def amStep (hist : List Event) (cur : List Event) (m : List String) :
    List String × List Event :=
  cur.foldl
    (fun acc ev =>
      if ev.eventHash ∈ acc.1 then acc
      else (acc.1 ++ [ev.eventHash], acc.2 ++ parentsOf hist ev))
    (m, [])

/-- The `while` loop of `_buildAncestryMap`, fuel-indexed. -/
def amLoop (hist : List Event) : Nat → List Event → List String → List String
  | 0, _, m => m
  | fuel + 1, next, m =>
    if next.isEmpty then m
    else
      let s := amStep hist next m
      amLoop hist fuel (jsUniq s.2) s.1

/-- `_buildAncestryMap(event)` (line 1139): the set of hashes of the closed
ancestry of `event` within the snapshot, as the key list of the map. -/
def buildAncestryMap (hist : List Event) (e : Event) : List String :=
  amLoop hist (hist.length + 2) [e] []

/-- One level of `_findDescendantsInPath` (line 586): for each event of the
level not in the ancestry map, attach it as a discovered descendant of each of
its `_parents`, queueing parents seen for the first time. -/
def fdipStep (hist : List Event) (ancKeys : List String) (cur : List Event)
    (d : DMap) : DMap × List Event :=
  cur.foldl
    (fun acc ev =>
      if ev.eventHash ∈ ancKeys then acc
      else
        (parentsOf hist ev).foldl
          (fun acc2 p =>
            match alookup acc2.1 p.eventHash with
            | some lst =>
              if ev ∈ lst then acc2
              else (aset acc2.1 p.eventHash (lst ++ [ev]), acc2.2)
            | none => (acc2.1 ++ [(p.eventHash, [ev])], acc2.2 ++ [p]))
          acc)
    (d, [])

/-- The `while` loop of `_findDescendantsInPath`, fuel-indexed. -/
def fdipLoop (hist : List Event) (ancKeys : List String) :
    Nat → List Event → DMap → DMap
  | 0, _, d => d
  | fuel + 1, next, d =>
    if next.isEmpty then d
    else
      let s := fdipStep hist ancKeys next d
      fdipLoop hist ancKeys fuel s.2 s.1

/-- `_findDescendantsInPath({x, y, descendants, ancestryMap})` (line 586):
traverses backward from `y` through `_parents`, halting at hashes of
`ancKeys` (the ancestry of `x`), enlarging `d`. -/
def findDescendantsInPath (hist : List Event) (y : Event) (d : DMap)
    (ancKeys : List String) : DMap :=
  fdipLoop hist ancKeys (hist.length + 2) [y] d

/-- One level of `_flattenDescendants` (line 621): gather the recorded
immediate descendants of the level's events. -/
def flattenStep (d : DMap) (cur : List Event) : List Event :=
  cur.foldl (fun acc ev => acc ++ ((alookup d ev.eventHash).getD [])) []

/-- The `while` loop of `_flattenDescendants`, fuel-indexed; `res` is the
accumulated result. -/
def flattenLoop (d : DMap) : Nat → List Event → List Event → List Event
  | 0, _, res => res
  | fuel + 1, next, res =>
    if next.isEmpty then res
    else
      let next' := jsUniq (flattenStep d next)
      flattenLoop d fuel next' (res ++ next')

/-- `_flattenDescendants({x, descendants})` (line 621): forward-walk from `x`
through the descendants map, returning the deduplicated events reached. -/
def flattenDescendants (x : Event) (d : DMap) : List Event :=
  jsUniq (flattenLoop d (d.length + 2) [x] [])

/-- The inner scan of `_hasSufficientEndorsements` (line 729): fold the
discovered descendants, recording each new elector creator and returning
`true` as soon as the count reaches the supermajority. -/
def hseScan (electors : List String) (s : Nat) :
    List Event → List String → List String × Bool
  | [], endo => (endo, false)
  | e :: rest, endo =>
    if e.creator ∉ endo ∧ e.creator ∈ electors then
      let endo' := endo ++ [e.creator]
      if endo'.length ≥ s then (endo', true) else hseScan electors s rest endo'
    else hseScan electors s rest endo

/-- One level of `_hasSufficientEndorsements`: scan each event's descendant
list (successively extending the endorsement set) and gather the next
level. -/
def hseStep (electors : List String) (s : Nat) (d : DMap) :
    List Event → List String → (List String × Bool) × List Event
  | [], endo => ((endo, false), [])
  | ev :: rest, endo =>
    match alookup d ev.eventHash with
    | none => hseStep electors s d rest endo
    | some lst =>
      let r := hseScan electors s lst endo
      if r.2 then ((r.1, true), [])
      else
        let next := hseStep electors s d rest r.1
        (next.1, lst ++ next.2)

/-- The `while` loop of `_hasSufficientEndorsements`, fuel-indexed. -/
def hseLoop (electors : List String) (s : Nat) (d : DMap) :
    Nat → List Event → List String → Bool
  | 0, _, _ => false
  | fuel + 1, next, endo =>
    if next.isEmpty then false
    else
      let r := hseStep electors s d next endo
      if r.1.2 then true
      else hseLoop electors s d fuel (jsUniq r.2) r.1.1

/-- `_hasSufficientEndorsements({x, descendants, electorSet, supermajority})`
(line 715): counts distinct elector creators while forward-walking the
descendants map from `x`, `x`'s own creator always counted. -/
def hasSufficientEndorsements (hist : List Event) (x : Event)
    (d : DMap) (electors : List String) (s : Nat) : Bool :=
  hseLoop electors s d (hist.length + 2) [x] [x.creator]

/-- The tree-descendant walk of `_findDiversePedigreeMergeEvent` (line 459):
extend the descendants map up to the current tree descendant and test the
endorsements; abort on a byzantine fork or when the branch ends. -/
def fdpmLoop (hist : List Event) (electors : List String) (s : Nat)
    (x : Event) (ancKeys : List String) :
    Nat → Event → DMap → Option (Event × DMap)
  | 0, _, _ => none
  | fuel + 1, td, d =>
    let d' := findDescendantsInPath hist td d ancKeys
    if hasSufficientEndorsements hist x d' electors s then some (td, d')
    else
      match treeChildren hist electors td with
      | [c] => fdpmLoop hist electors s x ancKeys fuel c d'
      | _ => none

/-- `_findDiversePedigreeMergeEvent` (line 439): the earliest tree descendant
of `x` whose accumulated descendants-in-path carry endorsements from a
supermajority of electors; returns `x` itself when the supermajority is 1,
`none` on a byzantine fork or when history ends first.  Also returns the
final descendants map (the source mutates the caller's map in place). -/
def findDiversePedigreeMergeEvent (hist : List Event)
    (electors : List String) (s : Nat) (x : Event) (d : DMap)
    (ancKeys : List String) : Option (Event × DMap) :=
  if s = 1 then some (x, d)
  else
    match treeChildren hist electors x with
    | [c] => fdpmLoop hist electors s x ancKeys (hist.length + 1) c d
    | _ => none

/-- The event loop of one `_getAncestorHashes` level (line 164): visit each
unvisited event, record its hash and every hash of its `parentHash`, and
queue its `_parents`. -/
def gahGo (hist : List Event) :
    List Event → List Event × List String × List Event →
    List Event × List String × List Event
  | [], acc => acc
  | ev :: rest, acc =>
    if ev ∈ acc.1 then gahGo hist rest acc
    else
      gahGo hist rest
        (acc.1 ++ [ev],
         ev.parentHash.foldl jsAdd (jsAdd acc.2.1 ev.eventHash),
         acc.2.2 ++ parentsOf hist ev)

/-- One level of the breadth-first sweep of `_getAncestorHashes` (line 158). -/
def gahStep (hist : List Event) (cur : List Event)
    (st : List Event × List String) : List Event × List String × List Event :=
  gahGo hist cur (st.1, st.2, [])

/-- The `while` loop of `_getAncestorHashes`, fuel-indexed; the state is the
visited set (`descendants`) and the hash set (`hashes`). -/
def gahLoop (hist : List Event) :
    Nat → List Event → List Event × List String → List Event × List String
  | 0, _, st => st
  | fuel + 1, next, st =>
    if next.isEmpty then st
    else
      let s := gahStep hist next st
      gahLoop hist fuel s.2.2 (s.1, s.2.1)

/-- `_getAncestorHashes({allXs, ledgerNode})` (line 154): all hashes of events
reachable backward through `_parents` from each X, plus every hash listed in
those events' `parentHash`, deduplicated in discovery order. -/
def getAncestorHashes (hist : List Event) (xs : List Event) : List String :=
  (xs.foldl
    (fun st x => gahLoop hist (hist.length + xs.length + 2) [x] st)
    ([], [])).2

/-- The per-elector X candidate record: the merge event X together with its
`_initDescendants` map. -/
structure XInfo where
  x : Event
  initDesc : DMap
deriving DecidableEq

/-- The per-elector Y candidate record: the merge event Y together with its
`_xDescendants` map (the descendants of the paired X accumulated while
searching for Y). -/
structure YInfo where
  y : Event
  xDesc : DMap
deriving DecidableEq

/-- The X-candidate loop of `_findMergeEventProofCandidates` (line 342), in
elector insertion order: each elector with exactly one tail takes that tail
as X (the `_findDiversePedigreeMergeEvent` call for X selection is commented
out in the source) with `_initDescendants` seeded with X's hash; electors
with several tails are skipped. -/
def buildXBy (hist : List Event) : List String → List (String × XInfo)
  | [] => []
  | el :: rest =>
    match tailsOf hist el with
    | [t] => (el, ⟨t, [(t.eventHash, [])]⟩) :: buildXBy hist rest
    | _ => buildXBy hist rest

/-- The Y-candidate loop of `_findMergeEventProofCandidates` (line 390):
for each elector's X, search for the diverse-pedigree merge event Y starting
from a fresh descendants map, with X's `_initDescendants` keys as the halting
ancestry. -/
def buildYBy (hist : List Event) (electors : List String) (s : Nat) :
    List (String × XInfo) → List (String × YInfo)
  | [] => []
  | (el, xi) :: rest =>
    match findDiversePedigreeMergeEvent hist electors s xi.x []
        (xi.initDesc.map (·.1)) with
    | some (y, d) => (el, ⟨y, d⟩) :: buildYBy hist electors s rest
    | none => buildYBy hist electors s rest

/-- `_findMergeEventProofCandidates` (line 306): `none` when fewer than a
supermajority of electors have tails or fewer than a supermajority yield an
X; otherwise the `xByElector` and `yByElector` maps. -/
def findMergeEventProofCandidates (hist : List Event)
    (electors : List String) :
    Option (List (String × XInfo) × List (String × YInfo)) :=
  let s := twoThirdsMajority electors.length
  let ewt := electorsWithTails hist electors
  if ewt.length < s then none
  else
    let xBy := buildXBy hist ewt
    if xBy.length < s then none
    else some (xBy, buildYBy hist electors s xBy)

/-- Reading `y._xDescendants` off a Y event: the source stores the map on the
event object; the last `yByElector` entry holding this event is the last
write.  `none` models the property being absent (a JavaScript `undefined`
whose use would throw). -/
def xDescOf (yBy : List (String × YInfo)) (y : Event) : Option DMap :=
  (yBy.reverse.find? (fun p => p.2.y == y)).map (·.2.xDesc)

/-- A votes map `elector id → most recent voting event` where the byzantine
sentinel `false` is modelled by `none`. -/
abbrev VotesMap : Type := List (String × Option Event)

/-- The mutable scratch state of `_findConsensusMergeEventProof`, keyed by
event hash: `_y`, `_votes`, `_supporting`, per-elector `_yDescendants`,
`_preCommit`, `_confirmPoint` and `_toConfirm` (whose cleared value `false` is
modelled by `none`). -/
structure TallyState where
  yMap : List (String × Event)
  votesMap : List (String × VotesMap)
  supportingMap : List (String × List Event)
  yDescMap : List (String × List (String × DMap))
  preCommitMap : List (String × Event)
  confirmPointMap : List (String × Event)
  toConfirmMap : List (String × Option Event)

/-- `_useMostRecentVotingEvent` (line 678): keep at most one vote per
elector, preferring the higher generation; a second distinct voting event at
the same generation marks the elector byzantine (`none`); an existing
byzantine mark is never replaced here. -/
def useMostRecentVotingEvent (hist : List Event) (votes : VotesMap)
    (elector : String) (votingEvent : Event) : VotesMap :=
  match alookup votes elector with
  | none => aset votes elector (some votingEvent)
  | some none => votes
  | some (some existing) =>
    if genGT (generation hist votingEvent) (generation hist existing) then
      aset votes elector (some votingEvent)
    else if generation hist votingEvent = generation hist existing ∧
        votingEvent ≠ existing then
      aset votes elector none
    else votes

/-- One level of `_updateToMostRecentVotes` (line 647): each event of the
level that has an entry in the descendants map votes (when its creator is an
elector and its generation is at least its Y's); its recorded descendants form
the next level. -/
def umrvStep (hist : List Event) (yBy : List (String × YInfo)) (d : DMap)
    (electorSet : List String) :
    List Event → VotesMap → VotesMap × List Event
  | [], votes => (votes, [])
  | ev :: rest, votes =>
    match alookup d ev.eventHash with
    | none => umrvStep hist yBy d electorSet rest votes
    | some lst =>
      let votes' :=
        if ev.creator ∈ electorSet then
          match alookup yBy ev.creator with
          | some yi =>
            if genGE (generation hist ev) (generation hist yi.y) then
              useMostRecentVotingEvent hist votes ev.creator ev
            else votes
          | none => votes
        else votes
      let r := umrvStep hist yBy d electorSet rest votes'
      (r.1, lst ++ r.2)

/-- The `while` loop of `_updateToMostRecentVotes`, fuel-indexed. -/
def umrvLoop (hist : List Event) (yBy : List (String × YInfo)) (d : DMap)
    (electorSet : List String) : Nat → List Event → VotesMap → VotesMap
  | 0, _, votes => votes
  | fuel + 1, next, votes =>
    if next.isEmpty then votes
    else
      let r := umrvStep hist yBy d electorSet next votes
      umrvLoop hist yBy d electorSet fuel (jsUniq r.2) r.1

/-- `_updateToMostRecentVotes` (line 647): walk the descendants map forward
from `y` and update the votes with every voting event encountered. -/
def updateToMostRecentVotes (hist : List Event)
    (yBy : List (String × YInfo)) (d : DMap) (electorSet : List String)
    (y : Event) (votes : VotesMap) : VotesMap :=
  umrvLoop hist yBy d electorSet (hist.length + 2) [y] votes

/-- `_compareSupportSet` / `_findSetInTally` equality (lines 1081, 1095):
reference equality, or equal hash multisets (`same length` and empty lodash
difference). -/
def compareSupportSet (set1 set2 : List Event) : Bool :=
  set1 == set2 ||
    (let a := set1.map (·.eventHash)
     let b := set2.map (·.eventHash)
     a.length == b.length && (jsDifference a b).isEmpty)

/-- A tally entry `{set, count}` (line 882). -/
structure TallyEntry where
  set : List Event
  count : Nat
deriving DecidableEq

/-- Insert one supporting set into the tally (line 876): increment the first
matching entry (returning its set so the vote's `_supporting` can be
normalized to the shared instance) or append a fresh `{set, count: 1}`. -/
def tallyInsert : List TallyEntry → List Event →
    List TallyEntry × Option (List Event)
  | [], sup => ([⟨sup, 1⟩], none)
  | te :: rest, sup =>
    if compareSupportSet te.set sup then
      (⟨te.set, te.count + 1⟩ :: rest, some te.set)
    else
      let r := tallyInsert rest sup
      (te :: r.1, r.2)

/-- The vote-tallying fold of `_tally` (line 871): byzantine votes (`none`)
and votes without `_supporting` are not counted; matched votes have their
`_supporting` normalized to the tally entry's set instance. -/
def buildTally (st : TallyState) (votes : VotesMap) :
    List TallyEntry × TallyState :=
  (avalues votes).foldl
    (fun acc v =>
      match v with
      | none => acc
      | some e =>
        match alookup acc.2.supportingMap e.eventHash with
        | none => acc
        | some sup =>
          let r := tallyInsert acc.1 sup
          match r.2 with
          | some nset =>
            (r.1,
             {acc.2 with
               supportingMap := aset acc.2.supportingMap e.eventHash nset})
          | none => (r.1, acc.2))
    ([], st)

/-- `_findUnionPreCommitSet` (line 1104): the longest `_supporting` set among
the existing precommit and the precommits of all resolved votes. -/
def findUnionPreCommitSet (st : TallyState) (votes : VotesMap) (pc : Event) :
    List Event :=
  (avalues votes).foldl
    (fun union v =>
      match v with
      | none => union
      | some rv =>
        match alookup st.preCommitMap rv.eventHash with
        | none => union
        | some rpc =>
          let sup := (alookup st.supportingMap rpc.eventHash).getD []
          if union.length < sup.length then sup else union)
    ((alookup st.supportingMap pc.eventHash).getD [])

/-- The next choice of `_tally` (lines 919-969): its support set, its count in
the tally, and, when it is an existing tally entry, that entry's index (used
for the object-identity comparison with the previous choice). -/
structure Choice where
  set : List Event
  count : Nat
  idx : Option Nat
deriving DecidableEq

/-- Tally entry by index with a default (the index always comes from
`findIdx?` and is in range). -/
def tallyGet (t : List TallyEntry) (i : Nat) : TallyEntry :=
  (t.get? i).getD ⟨[], 0⟩

/-- Compute the next choice (lines 946-969): when the tree parent has a
precommit, the tally entry matching the precommit union, if any; otherwise the
tally entry matching the union of the votes' `_y` events, or a fresh
`{set, count: 0}`. -/
def nextChoiceOf (st : TallyState) (tally : List TallyEntry)
    (votes : VotesMap) (existingPC : Option Event) : Choice :=
  let fromPC : Option Choice :=
    match existingPC with
    | some pc =>
      let union := findUnionPreCommitSet st votes pc
      match tally.findIdx? (fun te => compareSupportSet te.set union) with
      | some i => some ⟨(tallyGet tally i).set, (tallyGet tally i).count, some i⟩
      | none => none
    | none => none
  match fromPC with
  | some c => c
  | none =>
    let union := jsUniq
      ((avalues votes).foldl
        (fun acc v =>
          match v with
          | none => acc
          | some rv =>
            match alookup st.yMap rv.eventHash with
            | some yv => acc ++ [yv]
            | none => acc)
        [])
    match tally.findIdx? (fun te => compareSupportSet te.set union) with
    | some i => ⟨(tallyGet tally i).set, (tallyGet tally i).count, some i⟩
    | none => ⟨union, 0, none⟩

/-- The previous choice of `_tally` (line 977): the tally entry matching the
creator's current vote's `_supporting`, as an index, `null` otherwise. -/
def previousChoiceIdx (st : TallyState) (tally : List TallyEntry)
    (votes : VotesMap) (creator : String) : Option Nat :=
  match alookup votes creator with
  | some (some pv) =>
    match alookup st.supportingMap pv.eventHash with
    | some sup => tally.findIdx? (fun te => compareSupportSet te.set sup)
    | none => none
  | _ => none

/-- The votes object `_tally` reads at an event (`event._votes`). -/
def tallyVotesAt (st : TallyState) (event : Event) : VotesMap :=
  (alookup st.votesMap event.eventHash).getD []

/-- The tally and the vote-normalized state computed by `_tally` at an
event. -/
def tallyAt (st : TallyState) (event : Event) :
    List TallyEntry × TallyState :=
  buildTally st (tallyVotesAt st event)

/-- The tree parent's precommit visible at an event (line 927). -/
def existingPreCommitAt (hist : List Event) (st : TallyState)
    (event : Event) : Option Event :=
  match treeParent hist event with
  | some tp => alookup (tallyAt st event).2.preCommitMap tp.eventHash
  | none => none

/-- The next choice `_tally` computes at an event. -/
def nextChoiceAt (hist : List Event) (st : TallyState) (event : Event) :
    Choice :=
  nextChoiceOf (tallyAt st event).2 (tallyAt st event).1
    (tallyVotesAt st event) (existingPreCommitAt hist st event)

/-- Whether the creator's vote changed to the next choice (line 981):
they differ unless both are the same existing tally entry. -/
def choiceChangedAt (hist : List Event) (st : TallyState) (event : Event) :
    Bool :=
  let prevIdx := previousChoiceIdx (tallyAt st event).2 (tallyAt st event).1
    (tallyVotesAt st event) event.creator
  !(prevIdx.isSome && prevIdx == (nextChoiceAt hist st event).idx)

/-- The next choice's count after the change increment (lines 981-984). -/
def nextCountAt (hist : List Event) (st : TallyState) (event : Event) : Nat :=
  if choiceChangedAt hist st event then (nextChoiceAt hist st event).count + 1
  else (nextChoiceAt hist st event).count

/-- `_tally` (line 861).  Tallies the votes seen at `event`, computes the next
choice, increments its count when the creator's choice changed, runs the
precommit logic and either returns the decided support set (consensus) or
publishes the event's support and registers it as its creator's vote. -/
def tallyStep (hist : List Event) (electors : List String) (st : TallyState)
    (event : Event) : TallyState × Option (List Event) :=
  let votes := tallyVotesAt st event
  let st1 := (tallyAt st event).2
  let creator := event.creator
  let existingPC : Option Event := existingPreCommitAt hist st event
  let nc := nextChoiceAt hist st event
  let count' := nextCountAt hist st event
  let s := twoThirdsMajority electors.length
  let hasSupermajority : Bool := count' ≥ s
  -- precommit check (lines 1005-1041): reject on a support mismatch (clearing
  -- the confirm point's `_toConfirm`); at a confirm point with supermajority
  -- support, consensus is reached; at a confirm point without it, reject.
  let pr : TallyState × Option Event × Option (List Event) :=
    match existingPC with
    | none => (st1, none, none)
    | some pc =>
      let pcSup := (alookup st1.supportingMap pc.eventHash).getD []
      if ¬ compareSupportSet pcSup nc.set then
        let st2 :=
          match alookup st1.confirmPointMap pc.eventHash with
          | some cp =>
            {st1 with toConfirmMap := aset st1.toConfirmMap cp.eventHash none}
          | none => st1
        (st2, none, none)
      else
        match alookup st1.toConfirmMap event.eventHash with
        | some (some tc) =>
          if hasSupermajority then
            (st1, some pc,
             some ((alookup st1.supportingMap tc.eventHash).getD []))
          else (st1, none, none)
        | _ => (st1, some pc, none)
  match pr.2.2 with
  | some dec => (pr.1, some dec)
  | none =>
    let st2 := pr.1
    let pcAfter := pr.2.1
    -- create a new precommit when the next choice has a supermajority and no
    -- unrejected precommit remains (line 1047), locating its confirm point
    let cr : TallyState × Option Event :=
      if hasSupermajority ∧ pcAfter = none then
        let ancKeys := buildAncestryMap hist event
        match findDiversePedigreeMergeEvent hist electors s event [] ancKeys with
        | some (cp, _) =>
          ({st2 with
             confirmPointMap := aset st2.confirmPointMap event.eventHash cp,
             toConfirmMap := aset st2.toConfirmMap cp.eventHash (some event)},
           some event)
        | none => (st2, some event)
      else (st2, pcAfter)
    let st3 := cr.1
    let st4 :=
      match cr.2 with
      | some pc =>
        {st3 with preCommitMap := aset st3.preCommitMap event.eventHash pc}
      | none => st3
    ({st4 with
       supportingMap := aset st4.supportingMap event.eventHash nc.set,
       votesMap :=
         aset st4.votesMap event.eventHash (aset votes creator (some event))},
     none)

/-- The fresh per-elector `_yDescendants` maps (line 798). -/
def initYDesc (electorSet : List String) : List (String × DMap) :=
  electorSet.foldl (fun acc e => acc ++ [(e, [])]) []

/-- The preparation of one worklist event in `_tallyBranches` (lines
775-839): propagate `_y` from the tree parent and, unless the event already
has `_supporting`, inherit the tree parent's votes and `_yDescendants`,
extend the per-elector descendants maps up to this event, update the votes,
and report whether all participating votes are resolved (`false` = postpone).
The source reuses the tree parent's `_yDescendants` object; the model copies
its value. -/
def prepareEvent (hist : List Event) (yBy : List (String × YInfo))
    (electorSet : List String) (st : TallyState) (event : Event) :
    TallyState × Bool :=
  let st0 :=
    match treeParent hist event with
    | some tp =>
      match alookup st.yMap tp.eventHash with
      | some yv => {st with yMap := aset st.yMap event.eventHash yv}
      | none => st
    | none => st
  if (alookup st0.supportingMap event.eventHash).isSome then (st0, true)
  else
    let votes0 :=
      match alookup st0.votesMap event.eventHash with
      | some v => v
      | none =>
        match treeParent hist event with
        | some tp => (alookup st0.votesMap tp.eventHash).getD []
        | none => []
    let yd0 :=
      match alookup st0.yDescMap event.eventHash with
      | some yd => yd
      | none =>
        match treeParent hist event with
        | some tp =>
          match alookup st0.yDescMap tp.eventHash with
          | some yd => yd
          | none => initYDesc electorSet
        | none => initYDesc electorSet
    let step := electorSet.foldl
      (fun (acc : List (String × DMap) × VotesMap) el =>
        match alookup yBy el with
        | none => acc
        | some yi =>
          let dnew := findDescendantsInPath hist event
            ((alookup acc.1 el).getD []) (yi.xDesc.map (·.1))
          let votes' := updateToMostRecentVotes hist yBy dnew electorSet
            yi.y acc.2
          (aset acc.1 el dnew, votes'))
      (yd0, votes0)
    let st1 := {st0 with
      yDescMap := aset st0.yDescMap event.eventHash step.1,
      votesMap := aset st0.votesMap event.eventHash step.2}
    let outstanding := (avalues step.2).any
      (fun v =>
        match v with
        | some e => e ≠ event && (alookup st1.supportingMap e.eventHash).isNone
        | none => false)
    (st1, !outstanding)

/-- One pass of `_tallyBranches` over the current worklist level: postponed
events are requeued, tallied events enqueue their tree children, and a
decision short-circuits the level. -/
def tallyLevel (hist : List Event) (electors : List String)
    (yBy : List (String × YInfo)) (electorSet : List String) :
    List Event → TallyState → List Event →
    (TallyState × List Event) × Option (List Event)
  | [], st, nextAcc => ((st, nextAcc), none)
  | event :: rest, st, nextAcc =>
    let pr := prepareEvent hist yBy electorSet st event
    if !pr.2 then
      tallyLevel hist electors yBy electorSet rest pr.1 (nextAcc ++ [event])
    else
      let tr := tallyStep hist electors pr.1 event
      match tr.2 with
      | some r => ((tr.1, nextAcc), some r)
      | none =>
        tallyLevel hist electors yBy electorSet rest tr.1
          (nextAcc ++ treeChildren hist electors event)

/-- The `while` loop of `_tallyBranches` (line 772), fuel-indexed: `none`
when the worklist is exhausted without a decision. -/
def tallyBranchesLoop (hist : List Event) (electors : List String)
    (yBy : List (String × YInfo)) (electorSet : List String) :
    Nat → TallyState → List Event → Option (List Event)
  | 0, _, _ => none
  | fuel + 1, st, next =>
    if next.isEmpty then none
    else
      let r := tallyLevel hist electors yBy electorSet next st []
      match r.2 with
      | some dec => some dec
      | none => tallyBranchesLoop hist electors yBy electorSet fuel r.1.1 r.1.2

/-- `_tallyBranches` (line 750): walk every Y branch forward from its Y
looking for consensus.  The elector set is the key set of `yByElector`; the
initial worklist is the Y candidates. -/
def tallyBranches (hist : List Event) (electors : List String)
    (yBy : List (String × YInfo)) (st : TallyState) : Option (List Event) :=
  tallyBranchesLoop hist electors yBy (yBy.map (·.1))
    ((hist.length + 2) * (hist.length + 2)) st (yBy.map (·.2.y))

/-- One level of `_hasAncestors` (line 1188): check each unchecked parent for
candidate membership (early `true` when a new find reaches `minC`) and queue
the parents of those still viable (not ruled out by every remaining
candidate's ancestry map). -/
def haStep (hist : List Event) (cands : List Event)
    (candMaps : List (String × List String)) (minC : Nat) :
    List Event → List Event → List Event →
    (List Event × List Event × List Event) × Bool
  | [], checked, found => ((checked, found, []), false)
  | parent :: rest, checked, found =>
    if parent ∈ checked then haStep hist cands candMaps minC rest checked found
    else
      let checked' := checked ++ [parent]
      let isNew : Bool := parent ∈ cands ∧ parent ∉ found
      let found' := if isNew then found ++ [parent] else found
      if isNew ∧ found'.length ≥ minC then ((checked', found', []), true)
      else
        let viable := (jsDifference cands found').any
          (fun c =>
            !((alookup candMaps c.eventHash).getD []).contains
              parent.eventHash)
        let mine := if viable then parentsOf hist parent else []
        let r := haStep hist cands candMaps minC rest checked' found'
        ((r.1.1, r.1.2.1, mine ++ r.1.2.2), r.2)

/-- The `while` loop of `_hasAncestors`, fuel-indexed; returns the `found`
set and whether `minC` candidates were found. -/
def haLoop (hist : List Event) (cands : List Event)
    (candMaps : List (String × List String)) (minC : Nat) :
    Nat → List Event → List Event → List Event → List Event × Bool
  | 0, _, _, found => (found, decide (found.length ≥ minC))
  | fuel + 1, next, checked, found =>
    if next.isEmpty then (found, decide (found.length ≥ minC))
    else
      let r := haStep hist cands candMaps minC next checked found
      if r.2 then (r.1.2.1, true)
      else
        haLoop hist cands candMaps minC fuel (jsUniq r.1.2.2) r.1.1 r.1.2.1

/-- `_allEndorsedYs` (line 1158): the Y candidates that are ancestors of
`target`, collected by `_hasAncestors` with `min = candidates.length`. -/
def allEndorsedYs (hist : List Event) (allYs : List Event)
    (candMaps : List (String × List String)) (target : Event) : List Event :=
  (haLoop hist allYs candMaps allYs.length (hist.length + 2)
    (parentsOf hist target) [] []).1

/-- The `yAncestryMaps` of `_findConsensusMergeEventProof` (line 513): the
closed ancestry of each Y, enlarged with the keys of the Y's `_xDescendants`
and of the paired X's `_initDescendants`.  The source would throw if a Y's
creator had no X; that branch leaves the map unchanged. -/
def yAncestryMaps (hist : List Event) (xBy : List (String × XInfo))
    (yBy : List (String × YInfo)) : List (String × List String) :=
  let allYs := yBy.map (·.2.y)
  let base : List (String × List String) :=
    allYs.foldl (fun acc y => aset acc y.eventHash (buildAncestryMap hist y))
      []
  allYs.foldl
    (fun acc y =>
      let m0 := (alookup acc y.eventHash).getD []
      let m1 := (((xDescOf yBy y).getD []).map (·.1)).foldl jsAdd m0
      let m2 :=
        match alookup xBy y.creator with
        | some xi => (xi.initDesc.map (·.1)).foldl jsAdd m1
        | none => m1
      aset acc y.eventHash m2)
    base

/-- The vote initialization of one Y (line 527): `_supporting` candidates are
the Ys in its ancestry plus itself, and its `_votes` maps each such Y's
creator to that Y. -/
def initVotesFor (hist : List Event) (allYs : List Event)
    (candMaps : List (String × List String)) (y : Event) : VotesMap :=
  let supporting := jsAdd (allEndorsedYs hist allYs candMaps y) y
  supporting.foldl (fun acc sup => aset acc sup.creator (some sup)) []

/-- The initial tally state of `_findConsensusMergeEventProof`: every Y has
`_y = y` and its initial `_votes`; all other scratch state is empty. -/
def initTallyState (hist : List Event) (xBy : List (String × XInfo))
    (yBy : List (String × YInfo)) : TallyState :=
  let allYs := yBy.map (·.2.y)
  let cm := yAncestryMaps hist xBy yBy
  allYs.foldl
    (fun st y =>
      {st with
        yMap := aset st.yMap y.eventHash y,
        votesMap :=
          aset st.votesMap y.eventHash (initVotesFor hist allYs cm y)})
    ⟨[], [], [], [], [], [], []⟩

/-- `_findConsensusMergeEventProof` (line 496): with a single elector
consensus is trivially all Ys; otherwise initialize the votes and walk the Y
branches, returning `[]` when no consensus is found. -/
def findConsensusMergeEventProof (hist : List Event)
    (electors : List String) (xBy : List (String × XInfo))
    (yBy : List (String × YInfo)) : List Event :=
  let allYs := yBy.map (·.2.y)
  if electors.length = 1 then allYs
  else
    match tallyBranches hist electors yBy (initTallyState hist xBy yBy) with
    | some c => c
    | none => []

/-- One merge event X and Y pair of the returned proof, with `proof` the
events establishing the endorsement of X (line 260). -/
structure ProofPair where
  y : Event
  x : Event
  proof : List Event
deriving DecidableEq

/-- The `consensus` pairing of `_findMergeEventProof` (line 260): each Y is
paired with its creator's X and the flattened `_xDescendants` path; a single
elector's empty proof becomes `[x]`.  `none` models the `TypeError` the
source would throw when a returned Y's creator has no X or the Y carries no
`_xDescendants` map. -/
def mkProofPairs (xBy : List (String × XInfo)) (yBy : List (String × YInfo))
    (s : Nat) : List Event → Option (List ProofPair)
  | [] => some []
  | y :: rest =>
    match alookup xBy y.creator, xDescOf yBy y with
    | some xi, some d =>
      let proof0 := flattenDescendants xi.x d
      let proof := if proof0.isEmpty ∧ s = 1 then [xi.x] else proof0
      match mkProofPairs xBy yBy s rest with
      | some ps => some (⟨y, xi.x, proof⟩ :: ps)
      | none => none
    | _, _ => none

/-- `_findMergeEventProof` (line 217): candidates, the supermajority check on
Y candidates, the consensus walk, and the pairing of Ys with Xs.  `some []`
is the source's `{consensus: []}` (no consensus); the outer `none` is a
modelled `TypeError`.  `blockHeight` is threaded by the source only into log
statements and is omitted. -/
def findMergeEventProof (hist : List Event) (electors : List String) :
    Option (List ProofPair) :=
  match findMergeEventProofCandidates hist electors with
  | none => some []
  | some (xBy, yBy) =>
    let s := twoThirdsMajority electors.length
    if yBy.length < s then some []
    else
      let ys := findConsensusMergeEventProof hist electors xBy yBy
      if ys.isEmpty then some []
      else mkProofPairs xBy yBy s ys

/-- The non-null result of `findConsensus`: the committed event hashes and
the consensus proof hashes. -/
structure ConsensusResult where
  eventHashes : List String
  consensusProofHashes : List String
deriving DecidableEq

/-- `findConsensus` (line 34): `some none` is the source's `null` (no
consensus), `some (some r)` a decision, and the outer `none` a modelled
`TypeError`.  `consensusProofHashes` deduplicates the concatenated proof
hashes of all pairs; `eventHashes` sweeps the ancestries of all Xs. -/
def findConsensus (hist : List Event) (electors : List String) :
    Option (Option ConsensusResult) :=
  match findMergeEventProof hist electors with
  | none => none
  | some pairs =>
    if pairs.isEmpty then some none
    else
      let allXs := pairs.map (·.x)
      let cph := jsUniq
        (pairs.foldl (fun acc p => acc ++ p.proof.map (·.eventHash)) [])
      some (some ⟨getAncestorHashes hist allXs, cph⟩)

/-- A filter over history whose predicate requires membership in an empty
elector list is empty. -/
theorem electorsWithTails_nil_electors (hist : List Event) :
    electorsWithTails hist [] = [] := by
  unfold electorsWithTails
  have h : hist.filter
      (fun e => e.creator ∈ ([] : List String) && (treeParent hist e).isNone)
      = [] := by
    apply List.filter_eq_nil_iff.mpr
    intro a _
    simp
  rw [h]
  rfl

/-- `_tallyBranches` with an empty worklist finds no consensus, whatever the
fuel. -/
theorem tallyBranchesLoop_nil_worklist (hist : List Event)
    (electors : List String) (yBy : List (String × YInfo))
    (es : List String) (fuel : Nat) (st : TallyState) :
    tallyBranchesLoop hist electors yBy es fuel st [] = none := by
  cases fuel <;> simp [tallyBranchesLoop]

/-- C9: for every `n`, `twoThirdsMajority n` equals `n` when `n ≤ 3` and
`2·⌊n/3⌋ + 1` otherwise; in particular the values at 1, 2, 3, 4, 7, 10 and
13 are 1, 2, 3, 3, 5, 7 and 9. -/
theorem twoThirdsMajority_spec :
    (∀ n : Nat,
      twoThirdsMajority n = if n ≤ 3 then n else 2 * (n / 3) + 1) ∧
    twoThirdsMajority 1 = 1 ∧ twoThirdsMajority 2 = 2 ∧
    twoThirdsMajority 3 = 3 ∧ twoThirdsMajority 4 = 3 ∧
    twoThirdsMajority 7 = 5 ∧ twoThirdsMajority 10 = 7 ∧
    twoThirdsMajority 13 = 9 := by
  refine ⟨fun n => ?_, by decide, by decide, by decide, by decide, by decide,
    by decide, by decide⟩
  unfold twoThirdsMajority
  split
  · rfl
  · rw [Nat.mul_comm]

/-- C10: with an empty elector list `findConsensus` returns the source's
`null` (no consensus) on every history, without a modelled exception: the
supermajority is 0, so no early return fires, there are no X or Y candidates,
and the tally worklist over zero Y branches is immediately exhausted. -/
theorem findConsensus_no_electors (hist : List Event) :
    findConsensus hist [] = some none := by
  have hc : findMergeEventProofCandidates hist [] = some ([], []) := by
    unfold findMergeEventProofCandidates
    rw [electorsWithTails_nil_electors]
    simp [twoThirdsMajority, buildXBy, buildYBy]
  have hp : findMergeEventProof hist [] = some [] := by
    unfold findMergeEventProof
    rw [hc]
    simp [twoThirdsMajority, findConsensusMergeEventProof, tallyBranches,
      tallyBranchesLoop_nil_worklist]
  unfold findConsensus
  rw [hp]
  simp

/-- Scenario S1: a single elector A with the linear branch
`a1 (genesis tail) ← a2 ← a3`. -/
def s1a1 : Event := ⟨"a1", "A", none, []⟩

/-- Scenario S1, second merge event (tree parent `a1`). -/
def s1a2 : Event := ⟨"a2", "A", some "a1", ["a1"]⟩

/-- Scenario S1, third merge event (tree parent `a2`). -/
def s1a3 : Event := ⟨"a3", "A", some "a2", ["a2"]⟩

/-- Scenario S1 history snapshot. -/
def s1hist : List Event := [s1a1, s1a2, s1a3]

/-- With supermajority 1 the Y search returns X itself with an untouched
(empty) descendants map, so every Y candidate is its elector's X. -/
theorem buildYBy_supermajority_one (hist : List Event)
    (electors : List String) :
    ∀ xBy : List (String × XInfo),
      buildYBy hist electors 1 xBy =
        xBy.map (fun p => (p.1, ⟨p.2.x, []⟩)) := by
  intro xBy
  induction xBy with
  | nil => rfl
  | cons p rest ih =>
    obtain ⟨el, xi⟩ := p
    simp [buildYBy, findDiversePedigreeMergeEvent, ih]

/-- Flattening an empty descendants map reaches nothing. -/
theorem flattenDescendants_empty (x : Event) :
    flattenDescendants x [] = [] := rfl

/-- A defined `_xDescendants` read comes from some `yByElector` entry. -/
theorem xDescOf_mem (yBy : List (String × YInfo)) (y : Event) (d : DMap)
    (h : xDescOf yBy y = some d) : ∃ p ∈ yBy, p.2.xDesc = d := by
  unfold xDescOf at h
  cases hf : yBy.reverse.find? (fun p => p.2.y == y) with
  | none => rw [hf] at h; simp at h
  | some p =>
    rw [hf] at h
    simp only [Option.map_some', Option.some.injEq] at h
    refine ⟨p, ?_, h⟩
    have hm := List.mem_of_find?_eq_some hf
    exact List.mem_reverse.mp hm

/-- When every Y candidate has an empty `_xDescendants` map and the
supermajority is 1, every successfully built pair's proof is `[x]`. -/
theorem mkProofPairs_supermajority_one (xBy : List (String × XInfo))
    (yBy : List (String × YInfo))
    (hyd : ∀ p ∈ yBy, p.2.xDesc = ([] : DMap)) :
    ∀ ys pairs, mkProofPairs xBy yBy 1 ys = some pairs →
      ∀ pr ∈ pairs, pr.proof = [pr.x] := by
  intro ys
  induction ys with
  | nil =>
    intro pairs h pr hpr
    simp only [mkProofPairs] at h
    cases h
    simp at hpr
  | cons y rest ih =>
    intro pairs h pr hpr
    simp only [mkProofPairs] at h
    cases hx : alookup xBy y.creator with
    | none => rw [hx] at h; simp at h
    | some xi =>
      cases hd : xDescOf yBy y with
      | none => rw [hx, hd] at h; simp at h
      | some d =>
        have hdnil : d = [] := by
          obtain ⟨p, hp, hpd⟩ := xDescOf_mem yBy y d hd
          rw [← hpd]
          exact hyd p hp
        subst hdnil
        simp only [hx, hd, flattenDescendants_empty, List.isEmpty_nil,
          true_and, if_pos rfl] at h
        cases hrest : mkProofPairs xBy yBy 1 rest with
        | none => rw [hrest] at h; simp at h
        | some ps =>
          rw [hrest] at h
          simp only [Option.some.injEq] at h
          subst h
          rcases List.mem_cons.mp hpr with hh | ht
          · subst hh; rfl
          · exact ih ps hrest pr ht

/-- A successful candidate search returns the built X and Y maps. -/
theorem findMergeEventProofCandidates_eq (hist : List Event)
    (electors : List String) (xBy : List (String × XInfo))
    (yBy : List (String × YInfo))
    (h : findMergeEventProofCandidates hist electors = some (xBy, yBy)) :
    xBy = buildXBy hist (electorsWithTails hist electors) ∧
    yBy = buildYBy hist electors (twoThirdsMajority electors.length) xBy := by
  simp only [findMergeEventProofCandidates] at h
  split at h
  · cases h
  · split at h
    · cases h
    · injection h with h1
      injection h1 with hx hy
      subst hx
      exact ⟨rfl, hy.symm⟩

/-- C8: with the single elector A and history `a1 (tail), a2 (parent a1),
a3 (parent a2)`, `findConsensus` returns the Y-set `{a1}` (paired with
`X = a1` and proof `{a1}`), `consensusProofHashes = {a1}` and
`eventHashes = {a1}`; and in general with a single elector (the only elector
count whose supermajority is 1) every returned Y/X pair's consensus proof is
`{X}` itself. -/
theorem findConsensus_single_elector :
    findMergeEventProof s1hist ["A"] = some [⟨s1a1, s1a1, [s1a1]⟩] ∧
    findConsensus s1hist ["A"] = some (some ⟨["a1"], ["a1"]⟩) ∧
    ∀ (hist : List Event) (el : String) (pairs : List ProofPair),
      findMergeEventProof hist [el] = some pairs →
      ∀ pr ∈ pairs, pr.proof = [pr.x] := by
  refine ⟨by decide, by decide, ?_⟩
  intro hist el pairs h pr hpr
  have hs1 : twoThirdsMajority ([el] : List String).length = 1 := rfl
  unfold findMergeEventProof at h
  cases hc : findMergeEventProofCandidates hist [el] with
  | none =>
    rw [hc] at h
    cases h
    simp at hpr
  | some c =>
    obtain ⟨xBy, yBy⟩ := c
    rw [hc] at h
    dsimp only at h
    rw [hs1] at h
    obtain ⟨hxq, hyq⟩ := findMergeEventProofCandidates_eq hist [el] xBy yBy hc
    rw [hs1] at hyq
    have hyd : ∀ p ∈ yBy, p.2.xDesc = ([] : DMap) := by
      intro p hp
      rw [hyq, buildYBy_supermajority_one] at hp
      obtain ⟨q, _, hq⟩ := List.mem_map.mp hp
      rw [← hq]
    split at h
    · cases h
      simp at hpr
    · split at h
      · cases h
        simp at hpr
      · exact mkProofPairs_supermajority_one xBy yBy hyd _ pairs h pr hpr

/-- Generic fold invariant. -/
theorem foldl_inv {α σ : Type} (P : σ → Prop) (f : σ → α → σ)
    (l : List α) (s : σ) (h0 : P s) (hf : ∀ s a, P s → P (f s a)) :
    P (l.foldl f s) := by
  induction l generalizing s with
  | nil => exact h0
  | cons a t ih => exact ih (f s a) (hf s a h0)

/-- `jsAdd` preserves duplicate-freedom. -/
theorem jsAdd_nodup {α : Type} [DecidableEq α] {l : List α} (h : l.Nodup)
    (a : α) : (jsAdd l a).Nodup := by
  unfold jsAdd
  split
  · exact h
  · rename_i ha
    simp [List.nodup_append, h, ha]

/-- Accumulating into a duplicate-free list with `jsAdd` keeps it
duplicate-free. -/
theorem foldl_jsAdd_nodup {α : Type} [DecidableEq α] :
    ∀ (xs : List α) (l : List α), l.Nodup → (xs.foldl jsAdd l).Nodup := by
  intro xs
  induction xs with
  | nil => intro l h; exact h
  | cons a t ih => intro l h; exact ih (jsAdd l a) (jsAdd_nodup h a)

/-- `_.uniq` produces a duplicate-free list. -/
theorem jsUniq_nodup {α : Type} [DecidableEq α] (l : List α) :
    (jsUniq l).Nodup :=
  foldl_jsAdd_nodup l [] List.nodup_nil

/-- One `_getAncestorHashes` level keeps the hash set duplicate-free. -/
theorem gahGo_hashes_nodup (hist : List Event) :
    ∀ (cur : List Event) (acc : List Event × List String × List Event),
      acc.2.1.Nodup → (gahGo hist cur acc).2.1.Nodup := by
  intro cur
  induction cur with
  | nil => intro acc h; exact h
  | cons ev rest ih =>
    intro acc h
    unfold gahGo
    split
    · exact ih acc h
    · exact ih _ (foldl_jsAdd_nodup _ _ (jsAdd_nodup h _))

/-- One `_getAncestorHashes` level keeps the hash set duplicate-free. -/
theorem gahStep_hashes_nodup (hist : List Event) (cur : List Event)
    (st : List Event × List String) (h : st.2.Nodup) :
    (gahStep hist cur st).2.1.Nodup :=
  gahGo_hashes_nodup hist cur (st.1, st.2, []) h

/-- The `_getAncestorHashes` loop keeps the hash set duplicate-free. -/
theorem gahLoop_hashes_nodup (hist : List Event) :
    ∀ (fuel : Nat) (next : List Event) (st : List Event × List String),
      st.2.Nodup → (gahLoop hist fuel next st).2.Nodup := by
  intro fuel
  induction fuel with
  | zero => intro next st h; exact h
  | succ n ih =>
    intro next st h
    unfold gahLoop
    split
    · exact h
    · exact ih _ _ (gahStep_hashes_nodup hist next st h)

/-- `_getAncestorHashes` returns a duplicate-free hash list. -/
theorem getAncestorHashes_nodup (hist : List Event) (xs : List Event) :
    (getAncestorHashes hist xs).Nodup := by
  unfold getAncestorHashes
  exact foldl_inv (fun st => st.2.Nodup) _ xs ([], []) List.nodup_nil
    (fun st x h => gahLoop_hashes_nodup hist _ [x] st h)

/-- C2 counterexample event: a single elector A with one merge event whose
own hash "b" lexicographically exceeds the hash "a" it lists in
`parentHash`. -/
def c2event : Event := ⟨"b", "A", some "a", ["a"]⟩

/-- C2 counterexample: on this input `findConsensus` succeeds and returns
`eventHashes = ["b", "a"]`, the breadth-first discovery order, which is not
sorted lexicographically by event hash (the sorted order is `["a", "b"]`).
The claim's required lexicographic ordering therefore fails on the code. -/
theorem findConsensus_not_lexicographic :
    findConsensus [c2event] ["A"] = some (some ⟨["b", "a"], ["b"]⟩) ∧
    ¬ List.Sorted (fun a b : String => a < b) ["b", "a"] := by
  refine ⟨by decide, ?_⟩
  intro hsort
  have hb := (List.pairwise_cons.mp hsort).1 "a" (by simp)
  rw [String.lt_iff_toList_lt] at hb
  revert hb
  decide

/-- C2 amended: `findConsensus` is deterministic and its outputs are
deduplicated, order-deterministic hash lists (the discovery order of the
traversals), but they are not sorted lexicographically by event hash. -/
theorem findConsensus_deterministic_nodup (hist : List Event)
    (electors : List String) (res : ConsensusResult)
    (h : findConsensus hist electors = some (some res)) :
    res.eventHashes.Nodup ∧ res.consensusProofHashes.Nodup ∧
    ∀ hist2 electors2, hist2 = hist → electors2 = electors →
      findConsensus hist2 electors2 = some (some res) := by
  refine ?_
  have h0 := h
  unfold findConsensus at h
  cases hp : findMergeEventProof hist electors with
  | none => rw [hp] at h; cases h
  | some pairs =>
    rw [hp] at h
    dsimp only at h
    split at h
    · cases h
    · injection h with h1
      injection h1 with h2
      refine ⟨?_, ?_, ?_⟩
      · rw [← h2]
        exact getAncestorHashes_nodup hist _
      · rw [← h2]
        exact jsUniq_nodup _
      · intro hist2 electors2 e1 e2
        rw [e1, e2]
        exact h0

/-- The candidate search returns `null` when fewer than a supermajority of
electors have tails or yield an X. -/
theorem findMergeEventProofCandidates_below (hist : List Event)
    (electors : List String)
    (h : (electorsWithTails hist electors).length <
          twoThirdsMajority electors.length ∨
        (buildXBy hist (electorsWithTails hist electors)).length <
          twoThirdsMajority electors.length) :
    findMergeEventProofCandidates hist electors = none := by
  unfold findMergeEventProofCandidates
  dsimp only
  rcases h with h | h
  · rw [if_pos h]
  · simp [h]

/-- When fewer than a supermajority of electors yield a Y candidate, the
merge event proof is empty. -/
theorem findMergeEventProof_below_ys (hist : List Event)
    (electors : List String)
    (h3 : (buildYBy hist electors (twoThirdsMajority electors.length)
          (buildXBy hist (electorsWithTails hist electors))).length <
          twoThirdsMajority electors.length) :
    findMergeEventProof hist electors = some [] := by
  unfold findMergeEventProof
  cases hc : findMergeEventProofCandidates hist electors with
  | none => rfl
  | some c =>
    obtain ⟨xBy, yBy⟩ := c
    obtain ⟨hx, hy⟩ := findMergeEventProofCandidates_eq hist electors xBy yBy hc
    dsimp only
    rw [if_pos]
    rw [hy, hx]
    exact h3

/-- C5: `findConsensus` returns the source's `null` (no consensus) whenever
fewer than `s` electors have branch tails, or fewer than `s` electors yield
an X candidate, or fewer than `s` electors yield a Y candidate, where `s` is
the two-thirds supermajority of the elector count. -/
theorem findConsensus_below_supermajority (hist : List Event)
    (electors : List String)
    (h : (electorsWithTails hist electors).length <
          twoThirdsMajority electors.length ∨
        (buildXBy hist (electorsWithTails hist electors)).length <
          twoThirdsMajority electors.length ∨
        (buildYBy hist electors (twoThirdsMajority electors.length)
          (buildXBy hist (electorsWithTails hist electors))).length <
          twoThirdsMajority electors.length) :
    findConsensus hist electors = some none := by
  have hp : findMergeEventProof hist electors = some [] := by
    rcases h with h | h | h
    · unfold findMergeEventProof
      rw [findMergeEventProofCandidates_below hist electors (Or.inl h)]
    · unfold findMergeEventProof
      rw [findMergeEventProofCandidates_below hist electors (Or.inr h)]
    · exact findMergeEventProof_below_ys hist electors h
  unfold findConsensus
  rw [hp]
  simp

/-- Unfolding `alookup` over a cons cell. -/
theorem alookup_cons {β : Type} (k : String) (v : β) (l : List (String × β))
    (q : String) :
    alookup ((k, v) :: l) q = if k = q then some v else alookup l q := by
  unfold alookup
  by_cases h : k = q
  · rw [List.find?_cons_of_pos _ (by simpa using h), if_pos h]
    rfl
  · rw [List.find?_cons_of_neg _ (by simpa using h), if_neg h]

/-- A successful `alookup` exhibits a member of the list. -/
theorem alookup_mem {β : Type} {l : List (String × β)} {k : String} {v : β}
    (h : alookup l k = some v) : (k, v) ∈ l := by
  unfold alookup at h
  cases hf : l.find? (fun p => p.1 == k) with
  | none => rw [hf] at h; cases h
  | some p =>
    rw [hf] at h
    injection h with h2
    have hm := List.mem_of_find?_eq_some hf
    have hp := List.find?_some hf
    obtain ⟨p1, p2⟩ := p
    have h1 : p1 = k := by simpa using hp
    rw [← h1, ← h2]
    exact hm

/-- A failing `alookup` means the key is absent. -/
theorem alookup_eq_none {β : Type} {l : List (String × β)} {k : String}
    (h : alookup l k = none) : ∀ v : β, (k, v) ∉ l := by
  intro v hv
  induction l with
  | nil => cases hv
  | cons p rest ih =>
    obtain ⟨p1, p2⟩ := p
    rw [alookup_cons] at h
    rcases List.mem_cons.mp hv with he | ht
    · injection he with e1 e2
      rw [← e1] at h
      simp at h
    · split at h
      · cases h
      · exact ih h ht

/-- With duplicate-free keys, membership determines the lookup. -/
theorem mem_alookup {β : Type} {l : List (String × β)}
    (hnd : (l.map Prod.fst).Nodup) {k : String} {v : β} (h : (k, v) ∈ l) :
    alookup l k = some v := by
  induction l with
  | nil => cases h
  | cons p rest ih =>
    obtain ⟨p1, p2⟩ := p
    rw [alookup_cons]
    rcases List.mem_cons.mp h with he | ht
    · injection he with e1 e2
      rw [if_pos e1.symm, e2]
    · have hnd2 : (p1 :: rest.map Prod.fst).Nodup := by simpa using hnd
      have hnd' := List.nodup_cons.mp hnd2
      split
      · rename_i he
        exfalso
        apply hnd'.1
        subst he
        exact List.mem_map.mpr ⟨(p1, v), ht, rfl⟩
      · exact ih (by simpa using hnd'.2) ht

/-- Membership in `jsAdd`. -/
theorem jsAdd_mem {α : Type} [DecidableEq α] (l : List α) (a x : α) :
    x ∈ jsAdd l a ↔ x ∈ l ∨ x = a := by
  unfold jsAdd
  split
  · rename_i h
    constructor
    · exact Or.inl
    · rintro (hx | rfl)
      · exact hx
      · exact h
  · simp

/-- Membership in a `jsAdd` accumulation. -/
theorem foldl_jsAdd_mem {α : Type} [DecidableEq α] :
    ∀ (xs l : List α) (x : α), x ∈ xs.foldl jsAdd l ↔ x ∈ l ∨ x ∈ xs := by
  intro xs
  induction xs with
  | nil => intro l x; simp
  | cons a t ih =>
    intro l x
    rw [List.foldl_cons, ih, jsAdd_mem]
    simp only [List.mem_cons]
    tauto

/-- `_.uniq` preserves membership. -/
theorem jsUniq_mem {α : Type} [DecidableEq α] (l : List α) (x : α) :
    x ∈ jsUniq l ↔ x ∈ l := by
  unfold jsUniq
  rw [foldl_jsAdd_mem]
  simp

/-- The key list of the built X map is a sublist of the elector list it was
built from. -/
theorem buildXBy_keys_sublist (hist : List Event) :
    ∀ ewt : List String, ((buildXBy hist ewt).map Prod.fst).Sublist ewt := by
  intro ewt
  induction ewt with
  | nil => simp [buildXBy]
  | cons e t ih =>
    show ((buildXBy hist (e :: t)).map Prod.fst).Sublist (e :: t)
    unfold buildXBy
    cases ht : tailsOf hist e with
    | nil => exact ih.cons e
    | cons t1 rest =>
      cases rest with
      | nil => simpa using ih.cons₂ e
      | cons t2 r2 => exact ih.cons e

/-- Every entry of the built X map is its elector's unique tail, with
`_initDescendants` seeded with the tail's hash. -/
theorem buildXBy_lookup_some (hist : List Event) :
    ∀ (ewt : List String) (el : String) (xi : XInfo),
      alookup (buildXBy hist ewt) el = some xi →
      tailsOf hist el = [xi.x] ∧ xi.initDesc = [(xi.x.eventHash, [])] := by
  intro ewt
  induction ewt with
  | nil =>
    intro el xi h
    simp [buildXBy, alookup] at h
  | cons e t ih =>
    intro el xi h
    unfold buildXBy at h
    cases ht : tailsOf hist e with
    | nil => rw [ht] at h; exact ih el xi h
    | cons t1 rest =>
      cases rest with
      | nil =>
        rw [ht] at h
        rw [alookup_cons] at h
        split at h
        · rename_i he
          injection h with h2
          subst h2
          subst he
          exact ⟨ht, rfl⟩
        · exact ih el xi h
      | cons t2 r2 => rw [ht] at h; exact ih el xi h

/-- An elector with exactly one tail that appears in the elector-tail list
receives that tail as its X candidate. -/
theorem buildXBy_lookup_single (hist : List Event) :
    ∀ (ewt : List String) (el : String) (t : Event),
      el ∈ ewt → tailsOf hist el = [t] →
      alookup (buildXBy hist ewt) el = some ⟨t, [(t.eventHash, [])]⟩ := by
  intro ewt
  induction ewt with
  | nil => intro el t h; cases h
  | cons e tl ih =>
    intro el t hmem hta
    unfold buildXBy
    by_cases he : e = el
    · subst he
      rw [hta, alookup_cons, if_pos rfl]
    · have hmem' : el ∈ tl := by
        rcases List.mem_cons.mp hmem with h | h
        · exact absurd h.symm he
        · exact h
      cases ht : tailsOf hist e with
      | nil => exact ih el t hmem' hta
      | cons t1 rest =>
        cases rest with
        | nil => rw [alookup_cons, if_neg he]; exact ih el t hmem' hta
        | cons t2 r2 => exact ih el t hmem' hta

/-- An elector with a tail is among the electors with tails. -/
theorem mem_electorsWithTails (hist : List Event) (electors : List String)
    (el : String) (hel : el ∈ electors) (t : Event)
    (ht : t ∈ tailsOf hist el) : el ∈ electorsWithTails hist electors := by
  unfold electorsWithTails
  rw [jsUniq_mem]
  unfold tailsOf at ht
  have hmf := List.mem_filter.mp ht
  have hcr : t.creator = el := by
    have := hmf.2
    simp only [Bool.and_eq_true, beq_iff_eq] at this
    exact this.1
  have hnone : (treeParent hist t).isNone = true := by
    have := hmf.2
    simp only [Bool.and_eq_true] at this
    exact this.2
  apply List.mem_map.mpr
  refine ⟨t, ?_, hcr⟩
  apply List.mem_filter.mpr
  refine ⟨hmf.1, ?_⟩
  simp only [Bool.and_eq_true, decide_eq_true_eq]
  exact ⟨by rw [hcr]; exact hel, hnone⟩

/-- Every entry of the built Y map arises from an X entry of the same
elector whose diverse-pedigree search succeeded. -/
theorem buildYBy_mem (hist : List Event) (electors : List String) (s : Nat) :
    ∀ (xBy : List (String × XInfo)) (el : String) (yi : YInfo),
      (el, yi) ∈ buildYBy hist electors s xBy →
      ∃ xi, (el, xi) ∈ xBy ∧
        findDiversePedigreeMergeEvent hist electors s xi.x []
          (xi.initDesc.map (·.1)) = some (yi.y, yi.xDesc) := by
  intro xBy
  induction xBy with
  | nil => intro el yi h; cases h
  | cons p rest ih =>
    obtain ⟨el', xi'⟩ := p
    intro el yi h
    unfold buildYBy at h
    cases hf : findDiversePedigreeMergeEvent hist electors s xi'.x []
        (xi'.initDesc.map (·.1)) with
    | none =>
      rw [hf] at h
      obtain ⟨xi, hmem, hx⟩ := ih el yi h
      exact ⟨xi, List.mem_cons_of_mem _ hmem, hx⟩
    | some yd =>
      obtain ⟨y, d⟩ := yd
      rw [hf] at h
      rcases List.mem_cons.mp h with he | hrest
      · injection he with e1 e2
        subst e1
        refine ⟨xi', List.mem_cons_self _ _, ?_⟩
        rw [hf, e2]
      · obtain ⟨xi, hmem, hx⟩ := ih el yi hrest
        exact ⟨xi, List.mem_cons_of_mem _ hmem, hx⟩

/-- A member key always looks up to something. -/
theorem alookup_isSome_of_mem {β : Type} {l : List (String × β)} {k : String}
    {v : β} (h : (k, v) ∈ l) : ∃ w, alookup l k = some w := by
  induction l with
  | nil => cases h
  | cons p rest ih =>
    obtain ⟨p1, p2⟩ := p
    rw [alookup_cons]
    by_cases he : p1 = k
    · exact ⟨p2, if_pos he⟩
    · rcases List.mem_cons.mp h with hh | ht
      · injection hh with e1 _
        exact absurd e1.symm he
      · rw [if_neg he]
        exact ih ht

/-- C7: when the candidate search succeeds, every elector with exactly one
branch tail receives that tail itself as its X candidate, with X's hash
seeded into `_initDescendants`; every elector with more than one tail is
skipped and receives neither an X nor a Y candidate. -/
theorem xCandidates_are_tails (hist : List Event) (electors : List String)
    (xBy : List (String × XInfo)) (yBy : List (String × YInfo))
    (hc : findMergeEventProofCandidates hist electors = some (xBy, yBy)) :
    (∀ el t, el ∈ electors → tailsOf hist el = [t] →
      alookup xBy el = some ⟨t, [(t.eventHash, [])]⟩) ∧
    (∀ el, 2 ≤ (tailsOf hist el).length →
      alookup xBy el = none ∧ alookup yBy el = none) := by
  obtain ⟨hx, hy⟩ := findMergeEventProofCandidates_eq hist electors xBy yBy hc
  constructor
  · intro el t hel hta
    rw [hx]
    apply buildXBy_lookup_single
    · exact mem_electorsWithTails hist electors el hel t
        (hta ▸ List.mem_cons_self t [])
    · exact hta
  · intro el hlen
    have hxnone : alookup xBy el = none := by
      cases hl : alookup xBy el with
      | none => rfl
      | some xi =>
        exfalso
        rw [hx] at hl
        have := (buildXBy_lookup_some hist _ el xi hl).1
        rw [this] at hlen
        simp at hlen
    refine ⟨hxnone, ?_⟩
    cases hl : alookup yBy el with
    | none => rfl
    | some yi =>
      exfalso
      have hmem := alookup_mem hl
      rw [hy] at hmem
      obtain ⟨xi, hxmem, _⟩ := buildYBy_mem hist electors _ xBy el yi hmem
      obtain ⟨w, hw⟩ := alookup_isSome_of_mem hxmem
      rw [hxnone] at hw
      cases hw

/-- Witness for the single-elector proof property at the S1 input. -/
theorem findConsensus_single_elector_witness :
    (⟨s1a1, s1a1, [s1a1]⟩ : ProofPair).proof =
      [(⟨s1a1, s1a1, [s1a1]⟩ : ProofPair).x] := by
  exact findConsensus_single_elector.2.2 s1hist "A" [⟨s1a1, s1a1, [s1a1]⟩]
    (by decide) ⟨s1a1, s1a1, [s1a1]⟩ (by simp)

/-- Witness for the amended determinism and deduplication claim at the S1
input. -/
theorem findConsensus_deterministic_nodup_witness :
    (["a1"] : List String).Nodup ∧ (["a1"] : List String).Nodup := by
  have h := findConsensus_deterministic_nodup s1hist ["A"] ⟨["a1"], ["a1"]⟩
    (by decide)
  exact ⟨h.1, h.2.1⟩

/-- Witness for the sub-supermajority early return: one tail among two
electors. -/
theorem findConsensus_below_supermajority_witness :
    findConsensus [s1a1] ["A", "B"] = some none :=
  findConsensus_below_supermajority [s1a1] ["A", "B"] (Or.inl (by decide))

/-- C7 witness event: elector A's single genesis tail. -/
def c7a1 : Event := ⟨"wa1", "A", none, []⟩

/-- C7 witness event: elector B's first tail (byzantine: B has two). -/
def c7b1 : Event := ⟨"wb1", "B", none, []⟩

/-- C7 witness event: elector B's second tail. -/
def c7b2 : Event := ⟨"wb2", "B", none, []⟩

/-- C7 witness event: elector C's single genesis tail. -/
def c7c1 : Event := ⟨"wc1", "C", none, []⟩

/-- C7 witness event: elector D's single genesis tail. -/
def c7d1 : Event := ⟨"wd1", "D", none, []⟩

/-- C7 witness history: four electors, B with a two-tail fork. -/
def c7hist : List Event := [c7a1, c7b1, c7b2, c7c1, c7d1]

/-- Witness for the X-candidate selection: A's unique tail becomes its X
with seeded `_initDescendants`; two-tailed B gets no X and no Y. -/
theorem xCandidates_are_tails_witness :
    alookup [("A", (⟨c7a1, [("wa1", [])]⟩ : XInfo)),
        ("C", ⟨c7c1, [("wc1", [])]⟩), ("D", ⟨c7d1, [("wd1", [])]⟩)] "A" =
      some ⟨c7a1, [("wa1", [])]⟩ ∧
    alookup [("A", (⟨c7a1, [("wa1", [])]⟩ : XInfo)),
        ("C", ⟨c7c1, [("wc1", [])]⟩), ("D", ⟨c7d1, [("wd1", [])]⟩)] "B" =
      none ∧
    alookup ([] : List (String × YInfo)) "B" = none := by
  have h := xCandidates_are_tails c7hist ["A", "B", "C", "D"]
    [("A", ⟨c7a1, [("wa1", [])]⟩), ("C", ⟨c7c1, [("wc1", [])]⟩),
      ("D", ⟨c7d1, [("wd1", [])]⟩)] [] (by decide)
  refine ⟨h.1 "A" c7a1 (by decide) (by decide), ?_, ?_⟩
  · exact (h.2 "B" (by decide)).1
  · exact (h.2 "B" (by decide)).2

/-- C4 failing input: elector A's earlier branch event. -/
def c4p : Event := ⟨"c4p", "A", none, []⟩

/-- C4 failing input: the tallied event on A's branch (tree parent `c4p`). -/
def c4e : Event := ⟨"c4e", "A", some "c4p", ["c4p"]⟩

/-- C4 failing input: B's voting event. -/
def c4vb : Event := ⟨"c4vb", "B", none, []⟩

/-- C4 failing input: B's Y candidate. -/
def c4yb : Event := ⟨"c4yb", "B", none, []⟩

/-- C4 failing input history. -/
def c4hist : List Event := [c4p, c4e, c4vb, c4yb]

/-- C4 failing input votes at `c4e`: elector A is marked byzantine (the
sentinel `false`, modelled `none`), elector B votes through `c4vb`. -/
def c4votes : VotesMap := [("A", none), ("B", some c4vb)]

/-- C4 failing input tally state: `c4vb` supports `[c4yb]` and has `_y =
c4yb`; `c4e` carries the votes map with A's byzantine mark. -/
def c4state : TallyState :=
  ⟨[("c4vb", c4yb)], [("c4e", c4votes)], [("c4vb", [c4yb])], [], [], [], []⟩

/-- C4: the byzantine mark is not permanent.  At this state elector A's vote
at `c4e` is the byzantine sentinel, yet `_tally` (line 1077 of the source,
`event._votes[creator] = event`) unconditionally records the tallied event as
its own creator's vote, replacing the mark with a voting event — although the
step reaches no consensus.  This contradicts the claim (and the source's own
`_tallyBranches` comment that a byzantine entry "remains that way until
consensus is reached"). -/
theorem tally_overwrites_byzantine_mark :
    alookup c4votes "A" = some none ∧
    (tallyStep c4hist ["A", "B", "C", "D"] c4state c4e).2 = none ∧
    ((alookup (tallyStep c4hist ["A", "B", "C", "D"] c4state c4e).1.votesMap
        "c4e").map (fun v => alookup v "A")) = some (some (some c4e)) := by
  refine ⟨by decide, by decide, by decide⟩

/-- A decision surfaced by one `_tallyBranches` level comes from a `_tally`
call. -/
theorem tallyLevel_decision_from_step (hist : List Event)
    (electors : List String) (yBy : List (String × YInfo))
    (es : List String) :
    ∀ (cur : List Event) (st : TallyState) (acc : List Event)
      (r : List Event),
      (tallyLevel hist electors yBy es cur st acc).2 = some r →
      ∃ (st' : TallyState) (ev : Event),
        (tallyStep hist electors st' ev).2 = some r := by
  intro cur
  induction cur with
  | nil => intro st acc r h; cases h
  | cons event rest ih =>
    intro st acc r h
    unfold tallyLevel at h
    dsimp only at h
    split at h
    · exact ih _ _ r h
    · cases htr : (tallyStep hist electors
          (prepareEvent hist yBy es st event).1 event).2 with
      | some r0 =>
        rw [htr] at h
        simp only at h
        injection h with h2
        exact ⟨(prepareEvent hist yBy es st event).1, event, by rw [htr, h2]⟩
      | none =>
        rw [htr] at h
        simp only at h
        exact ih _ _ r h

/-- A decision of the `_tallyBranches` loop comes from a `_tally` call. -/
theorem tallyBranchesLoop_decision_from_step (hist : List Event)
    (electors : List String) (yBy : List (String × YInfo))
    (es : List String) :
    ∀ (fuel : Nat) (st : TallyState) (wl : List Event) (r : List Event),
      tallyBranchesLoop hist electors yBy es fuel st wl = some r →
      ∃ (st' : TallyState) (ev : Event),
        (tallyStep hist electors st' ev).2 = some r := by
  intro fuel
  induction fuel with
  | zero => intro st wl r h; cases h
  | succ n ih =>
    intro st wl r h
    unfold tallyBranchesLoop at h
    dsimp only at h
    split at h
    · cases h
    · cases hl : (tallyLevel hist electors yBy es wl st []).2 with
      | some dec =>
        rw [hl] at h
        simp only at h
        injection h with h2
        subst h2
        exact tallyLevel_decision_from_step hist electors yBy es wl st [] _ hl
      | none =>
        rw [hl] at h
        simp only at h
        exact ih _ _ r h

/-- C3: the tally step terminates the protocol with a decision exactly when
the tallied event is the confirm point of an ancestor precommit (it has
`_toConfirm` set and its tree parent carries an unrejected precommit whose
supported set equals the local next choice) and the next choice's count
reaches the supermajority, and the value decided is `_toConfirm`'s
`_supporting`; and every decision of the branch walk comes from such a step,
while an exhausted worklist yields no consensus. -/
theorem tally_decision_characterization (hist : List Event)
    (electors : List String) :
    (∀ (st : TallyState) (event : Event) (r : List Event),
      (tallyStep hist electors st event).2 = some r ↔
        ∃ pc tc,
          existingPreCommitAt hist st event = some pc ∧
          compareSupportSet
            ((alookup (tallyAt st event).2.supportingMap pc.eventHash).getD
              []) (nextChoiceAt hist st event).set = true ∧
          alookup (tallyAt st event).2.toConfirmMap event.eventHash =
            some (some tc) ∧
          twoThirdsMajority electors.length ≤ nextCountAt hist st event ∧
          r = (alookup (tallyAt st event).2.supportingMap
            tc.eventHash).getD []) ∧
    (∀ (yBy : List (String × YInfo)) (es : List String) (fuel : Nat)
      (st : TallyState) (wl : List Event) (r : List Event),
      tallyBranchesLoop hist electors yBy es fuel st wl = some r →
      ∃ (st' : TallyState) (ev : Event),
        (tallyStep hist electors st' ev).2 = some r) ∧
    (∀ (yBy : List (String × YInfo)) (es : List String) (fuel : Nat)
      (st : TallyState),
      tallyBranchesLoop hist electors yBy es fuel st [] = none) := by
  refine ⟨?_, ?_, ?_⟩
  · intro st event r
    unfold tallyStep
    dsimp only
    cases hpc : existingPreCommitAt hist st event with
    | none =>
      simp only [hpc]
      constructor
      · intro h
        simp at h
      · rintro ⟨pc, tc, hpce, _⟩
        cases hpce
    | some pc =>
      simp only [hpc]
      by_cases hcmp : compareSupportSet
          ((alookup (tallyAt st event).2.supportingMap pc.eventHash).getD [])
          (nextChoiceAt hist st event).set = true
      · rw [if_neg (by simp [hcmp])]
        cases htc : alookup (tallyAt st event).2.toConfirmMap
            event.eventHash with
        | none =>
          simp only [htc]
          constructor
          · intro h
            simp at h
          · rintro ⟨pc', tc, _, _, htce, _⟩
            cases htce
        | some otc =>
          cases otc with
          | none =>
            simp only [htc]
            constructor
            · intro h
              simp at h
            · rintro ⟨pc', tc, _, _, htce, _⟩
              cases htce
          | some tc =>
            simp only [htc]
            by_cases hsup : twoThirdsMajority electors.length ≤
                nextCountAt hist st event
            · rw [if_pos (decide_eq_true hsup)]
              constructor
              · intro h
                simp only at h
                injection h with h2
                exact ⟨pc, tc, rfl, hcmp, rfl, hsup, h2.symm⟩
              · rintro ⟨pc', tc', hpce, _, htce, _, hr⟩
                injection htce with htce2
                injection htce2 with htce3
                subst htce3
                subst hr
                simp
            · rw [if_neg (by simp [hsup])]
              constructor
              · intro h
                simp at h
              · rintro ⟨pc', tc', _, _, _, hs, _⟩
                exact absurd hs hsup
      · rw [if_pos hcmp]
        constructor
        · intro h
          simp at h
        · rintro ⟨pc', tc', hpce, hcm', _⟩
          injection hpce with hpce2
          subst hpce2
          exact absurd hcm' hcmp
  · intro yBy es fuel st wl r h
    exact tallyBranchesLoop_decision_from_step hist electors yBy es fuel st
      wl r h
  · intro yBy es fuel st
    exact tallyBranchesLoop_nil_worklist hist electors yBy es fuel st

/-- C3 witness: elector A's precommit event (also its own confirm target). -/
def c3p : Event := ⟨"c3p", "A", none, []⟩

/-- C3 witness: the confirm-point event on A's branch (tree parent `c3p`). -/
def c3e : Event := ⟨"c3e", "A", some "c3p", ["c3p"]⟩

/-- C3 witness: A's current voting event. -/
def c3va : Event := ⟨"c3va", "A", none, []⟩

/-- C3 witness: the supported Y. -/
def c3yb : Event := ⟨"c3yb", "A", none, []⟩

/-- C3 witness history. -/
def c3hist : List Event := [c3p, c3e, c3va, c3yb]

/-- C3 witness tally state: `c3e` is the confirm point (`_toConfirm = c3p`)
of the precommit `c3p`, which supports `[c3yb]`, matching the local vote. -/
def c3state : TallyState :=
  ⟨[("c3va", c3yb)], [("c3e", [("A", some c3va)])],
   [("c3p", [c3yb]), ("c3va", [c3yb])], [], [("c3p", c3p)], [],
   [("c3e", some c3p)]⟩

/-- Witness for the tally decision characterization: at the `c3state` confirm
point the step decides `[c3yb]`, and the branch loop surfaces a decision
produced by such a step. -/
theorem tally_decision_characterization_witness :
    (tallyStep c3hist ["A"] c3state c3e).2 = some [c3yb] ∧
    ∃ (st' : TallyState) (ev : Event),
      (tallyStep c3hist ["A"] st' ev).2 = some [c3yb] := by
  have h := tally_decision_characterization c3hist ["A"]
  constructor
  · exact (h.1 c3state c3e [c3yb]).mpr
      ⟨c3p, c3p, by decide, by decide, by decide, by decide, by decide⟩
  · exact h.2.1 [] [] 5 c3state [c3e] [c3yb] (by decide)

/-- One backward step through the materialized `_parents` links: `b` is a
parent (in the snapshot) of `a`. -/
def ancStep (hist : List Event) (a b : Event) : Prop := b ∈ parentsOf hist a

/-- `e` is reachable backward from `x` through `_parents`: `e` is `x` itself
or one of its snapshot ancestors. -/
def reachesBack (hist : List Event) (x e : Event) : Prop :=
  Relation.ReflTransGen (ancStep hist) x e

/-- Modelled from the spec (Committer, §4.4): the committed event hashes are
"all ancestor hashes reachable through `_parents` from every paired X, plus
every hash listed in those ancestors' `parentHash`". -/
def specCommittedHashes (hist : List Event) (xs : List Event) (h : String) :
    Prop :=
  ∃ x ∈ xs, ∃ e, reachesBack hist x e ∧ (h = e.eventHash ∨ h ∈ e.parentHash)

/-- The event hashes of the snapshot are pairwise distinct. -/
def hashesNodup (hist : List Event) : Prop :=
  (hist.map (fun e => e.eventHash)).Nodup

/-- The Xs of the decided proof pairs (`allXs`, line 62). -/
def consensusXs (hist : List Event) (electors : List String) : List Event :=
  match findMergeEventProof hist electors with
  | some pairs => pairs.map (·.x)
  | none => []

/-- Generic fold invariant with a precondition on the folded elements. -/
theorem foldl_inv_mem {α σ : Type} (P : σ → Prop) (Q : α → Prop)
    (f : σ → α → σ) (l : List α) (hl : ∀ a ∈ l, Q a) (s : σ) (h0 : P s)
    (hf : ∀ s a, Q a → P s → P (f s a)) : P (l.foldl f s) := by
  induction l generalizing s with
  | nil => exact h0
  | cons a t ih =>
    exact ih (fun b hb => hl b (List.mem_cons_of_mem a hb)) (f s a)
      (hf s a (hl a (List.mem_cons_self a t)) h0)

/-- Membership after a `jsAdd` accumulation (backward inclusion). -/
theorem mem_foldl_jsAdd_left {α : Type} [DecidableEq α] (xs l : List α)
    (x : α) (h : x ∈ l) : x ∈ xs.foldl jsAdd l :=
  (foldl_jsAdd_mem xs l x).mpr (Or.inl h)

/-- Membership after a `jsAdd` accumulation (element inclusion). -/
theorem mem_foldl_jsAdd_right {α : Type} [DecidableEq α] (xs l : List α)
    (x : α) (h : x ∈ xs) : x ∈ xs.foldl jsAdd l :=
  (foldl_jsAdd_mem xs l x).mpr (Or.inr h)

/-- The `_getAncestorHashes` event loop only enlarges the visited set, the
hash set and the queued frontier. -/
theorem gahGo_mono (hist : List Event) :
    ∀ (cur : List Event) (acc : List Event × List String × List Event),
      (∀ e ∈ acc.1, e ∈ (gahGo hist cur acc).1) ∧
      (∀ h ∈ acc.2.1, h ∈ (gahGo hist cur acc).2.1) ∧
      (∀ e ∈ acc.2.2, e ∈ (gahGo hist cur acc).2.2) := by
  intro cur
  induction cur with
  | nil => intro acc; exact ⟨fun e he => he, fun h hh => hh, fun e he => he⟩
  | cons ev rest ih =>
    intro acc
    unfold gahGo
    split
    · exact ih acc
    · obtain ⟨m1, m2, m3⟩ := ih (acc.1 ++ [ev],
        ev.parentHash.foldl jsAdd (jsAdd acc.2.1 ev.eventHash),
        acc.2.2 ++ parentsOf hist ev)
      refine ⟨?_, ?_, ?_⟩
      · intro e he
        exact m1 e (List.mem_append_left _ he)
      · intro h hh
        exact m2 h (mem_foldl_jsAdd_left _ _ _
          ((jsAdd_mem _ _ _).mpr (Or.inl hh)))
      · intro e he
        exact m3 e (List.mem_append_left _ he)

/-- Every event of the processed level ends up visited. -/
theorem gahGo_cur_visited (hist : List Event) :
    ∀ (cur : List Event) (acc : List Event × List String × List Event),
      ∀ e ∈ cur, e ∈ (gahGo hist cur acc).1 := by
  intro cur
  induction cur with
  | nil => intro acc e he; cases he
  | cons ev rest ih =>
    intro acc e he
    unfold gahGo
    rcases List.mem_cons.mp he with rfl | ht
    · split
      · rename_i hv
        exact (gahGo_mono hist rest acc).1 e hv
      · exact (gahGo_mono hist rest _).1 e
          (List.mem_append_right _ (List.mem_singleton.mpr rfl))
    · split
      · exact ih acc e ht
      · exact ih _ e ht

/-- New visited events come from the processed level. -/
theorem gahGo_visited_sub (hist : List Event) :
    ∀ (cur : List Event) (acc : List Event × List String × List Event),
      ∀ e ∈ (gahGo hist cur acc).1, e ∈ acc.1 ∨ e ∈ cur := by
  intro cur
  induction cur with
  | nil => intro acc e he; exact Or.inl he
  | cons ev rest ih =>
    intro acc e he
    unfold gahGo at he
    split at he
    · rcases ih acc e he with h | h
      · exact Or.inl h
      · exact Or.inr (List.mem_cons_of_mem _ h)
    · rcases ih _ e he with h | h
      · rcases List.mem_append.mp h with h1 | h1
        · exact Or.inl h1
        · exact Or.inr (List.mem_cons.mpr (Or.inl (List.mem_singleton.mp h1)))
      · exact Or.inr (List.mem_cons_of_mem _ h)

/-- New frontier events are parents of processed events. -/
theorem gahGo_next_sub (hist : List Event) :
    ∀ (cur : List Event) (acc : List Event × List String × List Event),
      ∀ p ∈ (gahGo hist cur acc).2.2,
        p ∈ acc.2.2 ∨ ∃ e ∈ cur, p ∈ parentsOf hist e := by
  intro cur
  induction cur with
  | nil => intro acc p hp; exact Or.inl hp
  | cons ev rest ih =>
    intro acc p hp
    unfold gahGo at hp
    split at hp
    · rcases ih acc p hp with h | ⟨e, he, hpe⟩
      · exact Or.inl h
      · exact Or.inr ⟨e, List.mem_cons_of_mem _ he, hpe⟩
    · rcases ih _ p hp with h | ⟨e, he, hpe⟩
      · rcases List.mem_append.mp h with h1 | h1
        · exact Or.inl h1
        · exact Or.inr ⟨ev, List.mem_cons_self _ _, h1⟩
      · exact Or.inr ⟨e, List.mem_cons_of_mem _ he, hpe⟩

/-- New hashes come from processed events' own or parent hashes. -/
theorem gahGo_hashes_sub (hist : List Event) :
    ∀ (cur : List Event) (acc : List Event × List String × List Event),
      ∀ h ∈ (gahGo hist cur acc).2.1,
        h ∈ acc.2.1 ∨ ∃ e ∈ cur, h = e.eventHash ∨ h ∈ e.parentHash := by
  intro cur
  induction cur with
  | nil => intro acc h hh; exact Or.inl hh
  | cons ev rest ih =>
    intro acc h hh
    unfold gahGo at hh
    split at hh
    · rcases ih acc h hh with h1 | ⟨e, he, h1⟩
      · exact Or.inl h1
      · exact Or.inr ⟨e, List.mem_cons_of_mem _ he, h1⟩
    · rcases ih _ h hh with h1 | ⟨e, he, h1⟩
      · rcases (foldl_jsAdd_mem _ _ _).mp h1 with h2 | h2
        · rcases (jsAdd_mem _ _ _).mp h2 with h3 | h3
          · exact Or.inl h3
          · exact Or.inr ⟨ev, List.mem_cons_self _ _, Or.inl h3⟩
        · exact Or.inr ⟨ev, List.mem_cons_self _ _, Or.inr h2⟩
      · exact Or.inr ⟨e, List.mem_cons_of_mem _ he, h1⟩

/-- Visited events have their own hash and all their parent hashes
recorded. -/
theorem gahGo_records (hist : List Event) :
    ∀ (cur : List Event) (acc : List Event × List String × List Event),
      (∀ e ∈ acc.1, e.eventHash ∈ acc.2.1 ∧
        ∀ h ∈ e.parentHash, h ∈ acc.2.1) →
      ∀ e ∈ (gahGo hist cur acc).1,
        e.eventHash ∈ (gahGo hist cur acc).2.1 ∧
        ∀ h ∈ e.parentHash, h ∈ (gahGo hist cur acc).2.1 := by
  intro cur
  induction cur with
  | nil => intro acc hrec e he; exact hrec e he
  | cons ev rest ih =>
    intro acc hrec e he
    unfold gahGo
    unfold gahGo at he
    split
    · rename_i hv
      rw [if_pos hv] at he
      exact ih acc hrec e he
    · rename_i hv
      rw [if_neg hv] at he
      refine ih _ ?_ e he
      intro e' he'
      rcases List.mem_append.mp he' with h1 | h1
      · obtain ⟨r1, r2⟩ := hrec e' h1
        constructor
        · exact mem_foldl_jsAdd_left _ _ _ ((jsAdd_mem _ _ _).mpr (Or.inl r1))
        · intro h hh
          exact mem_foldl_jsAdd_left _ _ _
            ((jsAdd_mem _ _ _).mpr (Or.inl (r2 h hh)))
      · rw [List.mem_singleton.mp h1]
        constructor
        · exact mem_foldl_jsAdd_left _ _ _ ((jsAdd_mem _ _ _).mpr (Or.inr rfl))
        · intro h hh
          exact mem_foldl_jsAdd_right _ _ _ hh

/-- Parents of visited events stay visited, in the level, or queued. -/
theorem gahGo_closure (hist : List Event) :
    ∀ (cur : List Event) (acc : List Event × List String × List Event),
      (∀ e ∈ acc.1, ∀ p ∈ parentsOf hist e,
        p ∈ acc.1 ∨ p ∈ cur ∨ p ∈ acc.2.2) →
      ∀ e ∈ (gahGo hist cur acc).1, ∀ p ∈ parentsOf hist e,
        p ∈ (gahGo hist cur acc).1 ∨ p ∈ (gahGo hist cur acc).2.2 := by
  intro cur
  induction cur with
  | nil =>
    intro acc hcl e he p hp
    rcases hcl e he p hp with h | h | h
    · exact Or.inl h
    · cases h
    · exact Or.inr h
  | cons ev rest ih =>
    intro acc hcl e he p hp
    unfold gahGo
    unfold gahGo at he
    split
    · rename_i hv
      rw [if_pos hv] at he
      refine ih acc ?_ e he p hp
      intro e' he' p' hp'
      rcases hcl e' he' p' hp' with h | h | h
      · exact Or.inl h
      · rcases List.mem_cons.mp h with rfl | h1
        · exact Or.inl hv
        · exact Or.inr (Or.inl h1)
      · exact Or.inr (Or.inr h)
    · rename_i hv
      rw [if_neg hv] at he
      refine ih _ ?_ e he p hp
      intro e' he' p' hp'
      rcases List.mem_append.mp he' with h1 | h1
      · rcases hcl e' h1 p' hp' with h | h | h
        · exact Or.inl (List.mem_append_left _ h)
        · rcases List.mem_cons.mp h with rfl | h2
          · exact Or.inl (List.mem_append_right _ (List.mem_singleton.mpr rfl))
          · exact Or.inr (Or.inl h2)
        · exact Or.inr (Or.inr (List.mem_append_left _ h))
      · rw [List.mem_singleton.mp h1] at hp'
        exact Or.inr (Or.inr (List.mem_append_right _ hp'))

/-- A fully visited level is a no-op. -/
theorem gahGo_stall (hist : List Event) :
    ∀ (cur : List Event) (acc : List Event × List String × List Event),
      (∀ e ∈ cur, e ∈ acc.1) → gahGo hist cur acc = acc := by
  intro cur
  induction cur with
  | nil => intro acc _; rfl
  | cons ev rest ih =>
    intro acc hall
    unfold gahGo
    rw [if_pos (hall ev (List.mem_cons_self _ _))]
    exact ih acc (fun e he => hall e (List.mem_cons_of_mem _ he))

/-- The visited set's length never shrinks. -/
theorem gahGo_vis_len_mono (hist : List Event) :
    ∀ (cur : List Event) (acc : List Event × List String × List Event),
      acc.1.length ≤ (gahGo hist cur acc).1.length := by
  intro cur
  induction cur with
  | nil => intro acc; exact Nat.le_refl _
  | cons ev rest ih =>
    intro acc
    unfold gahGo
    split
    · exact ih acc
    · refine Nat.le_trans ?_ (ih _)
      simp

/-- An unvisited level event strictly grows the visited set. -/
theorem gahGo_growth (hist : List Event) :
    ∀ (cur : List Event) (acc : List Event × List String × List Event),
      (∃ e ∈ cur, e ∉ acc.1) →
      acc.1.length < (gahGo hist cur acc).1.length := by
  intro cur
  induction cur with
  | nil => intro acc ⟨e, he, _⟩; cases he
  | cons ev rest ih =>
    intro acc ⟨e, he, hnv⟩
    unfold gahGo
    split
    · rename_i hv
      refine ih acc ⟨e, ?_, hnv⟩
      rcases List.mem_cons.mp he with rfl | h1
      · exact absurd hv hnv
      · exact h1
    · have h2 := gahGo_vis_len_mono hist rest (acc.1 ++ [ev],
        ev.parentHash.foldl jsAdd (jsAdd acc.2.1 ev.eventHash),
        acc.2.2 ++ parentsOf hist ev)
      simp only [List.length_append, List.length_singleton] at h2
      omega

/-- The visited set stays duplicate-free. -/
theorem gahGo_vis_nodup (hist : List Event) :
    ∀ (cur : List Event) (acc : List Event × List String × List Event),
      acc.1.Nodup → (gahGo hist cur acc).1.Nodup := by
  intro cur
  induction cur with
  | nil => intro acc h; exact h
  | cons ev rest ih =>
    intro acc h
    unfold gahGo
    split
    · exact ih acc h
    · rename_i hv
      refine ih _ ?_
      simp [List.nodup_append, h, hv]

/-- Filtering with a stronger predicate yields a list no longer. -/
theorem length_filter_le_of_imp {α : Type} (l : List α) (p q : α → Bool)
    (h : ∀ a, q a = true → p a = true) :
    (l.filter q).length ≤ (l.filter p).length := by
  induction l with
  | nil => simp
  | cons a t ih =>
    rw [List.filter_cons, List.filter_cons]
    cases hq : q a
    · cases hp : p a
      · exact ih
      · simpa using Nat.le_succ_of_le ih
    · rw [h a hq]
      simpa using ih

/-- Enlarging the visited set by an unvisited universe element strictly
shrinks the unvisited part of the universe. -/
theorem length_filter_not_mem_lt {α : Type} [DecidableEq α]
    (U : List α) (vis vis' : List α) (hsub : ∀ e ∈ vis, e ∈ vis')
    (e0 : α) (h0U : e0 ∈ U) (h0n : e0 ∉ vis) (h0y : e0 ∈ vis') :
    (U.filter (fun e => e ∉ vis')).length <
      (U.filter (fun e => e ∉ vis)).length := by
  induction U with
  | nil => cases h0U
  | cons u rest ih =>
    rw [List.filter_cons, List.filter_cons]
    have himp : ∀ a : α, decide (a ∉ vis') = true → decide (a ∉ vis) = true := by
      intro a ha
      simp only [decide_eq_true_eq] at ha ⊢
      exact fun hm => ha (hsub a hm)
    by_cases hu' : u ∈ vis'
    · rw [if_neg (by simp [hu'])]
      by_cases hu : u ∈ vis
      · rw [if_neg (by simp [hu])]
        have hne : e0 ∈ rest := by
          rcases List.mem_cons.mp h0U with rfl | h1
          · exact absurd hu h0n
          · exact h1
        exact ih hne
      · rw [if_pos (by simp [hu])]
        have := length_filter_le_of_imp rest
          (fun e => decide (e ∉ vis)) (fun e => decide (e ∉ vis')) himp
        simpa using Nat.lt_succ_of_le this
    · have hu : u ∉ vis := fun hm => hu' (hsub u hm)
      rw [if_pos (by simp [hu']), if_pos (by simp [hu])]
      have hne : e0 ∈ rest := by
        rcases List.mem_cons.mp h0U with rfl | h1
        · exact absurd h0y hu'
        · exact h1
      simpa using ih hne

/-- With enough fuel, the `_getAncestorHashes` loop reaches a closed visited
set: everything visited or queued ends up visited, visited events record
their own and their parent hashes, and the visited set is closed under
`_parents`, duplicate-free, and inside the universe. -/
theorem gahLoop_closed (hist : List Event) (U : List Event)
    (hU : ∀ e ∈ hist, e ∈ U) :
    ∀ (fuel : Nat) (next vis : List Event) (hs : List String),
      vis.Nodup →
      (∀ e ∈ vis, e ∈ U) →
      (∀ e ∈ next, e ∈ U) →
      (∀ e ∈ vis, e.eventHash ∈ hs ∧ ∀ h ∈ e.parentHash, h ∈ hs) →
      (∀ e ∈ vis, ∀ p ∈ parentsOf hist e, p ∈ vis ∨ p ∈ next) →
      (U.filter (fun e => e ∉ vis)).length + 2 ≤ fuel →
      (∀ e ∈ vis, e ∈ (gahLoop hist fuel next (vis, hs)).1) ∧
      (∀ e ∈ next, e ∈ (gahLoop hist fuel next (vis, hs)).1) ∧
      (∀ e ∈ (gahLoop hist fuel next (vis, hs)).1,
        e.eventHash ∈ (gahLoop hist fuel next (vis, hs)).2 ∧
        ∀ h ∈ e.parentHash, h ∈ (gahLoop hist fuel next (vis, hs)).2) ∧
      (∀ e ∈ (gahLoop hist fuel next (vis, hs)).1,
        ∀ p ∈ parentsOf hist e, p ∈ (gahLoop hist fuel next (vis, hs)).1) ∧
      (gahLoop hist fuel next (vis, hs)).1.Nodup ∧
      (∀ e ∈ (gahLoop hist fuel next (vis, hs)).1, e ∈ U) ∧
      (∀ h ∈ hs, h ∈ (gahLoop hist fuel next (vis, hs)).2) := by
  intro fuel
  induction fuel with
  | zero =>
    intro next vis hs _ _ _ _ _ hfuel
    omega
  | succ n ih =>
    intro next vis hs hnd hvU hnU hrec hcl hfuel
    by_cases hne : next.isEmpty
    · have hnil : next = [] := List.isEmpty_iff.mp hne
      unfold gahLoop
      rw [if_pos hne]
      subst hnil
      refine ⟨fun e he => he, fun e he => absurd he (List.not_mem_nil e),
        hrec, ?_, hnd, hvU, fun h hh => hh⟩
      intro e he p hp
      rcases hcl e he p hp with h | h
      · exact h
      · cases h
    · unfold gahLoop
      rw [if_neg hne]
      dsimp only
      by_cases hall : ∀ e ∈ next, e ∈ vis
      · have hstall : gahStep hist next (vis, hs) = (vis, hs, []) :=
          gahGo_stall hist next (vis, hs, []) hall
        rw [hstall]
        dsimp only
        obtain ⟨m, rfl⟩ : ∃ m, n = m + 1 := ⟨n - 1, by omega⟩
        unfold gahLoop
        rw [if_pos (by simp)]
        refine ⟨fun e he => he, fun e he => hall e he, hrec, ?_, hnd, hvU,
          fun h hh => hh⟩
        intro e he p hp
        rcases hcl e he p hp with h | h
        · exact h
        · exact hall p h
      · push_neg at hall
        obtain ⟨e0, he0, he0n⟩ := hall
        have hgo : gahStep hist next (vis, hs) = gahGo hist next (vis, hs, []) := rfl
        rw [hgo]
        set s := gahGo hist next (vis, hs, []) with hsdef
        have hmono := gahGo_mono hist next (vis, hs, [])
        have hvis' : ∀ e ∈ vis, e ∈ s.1 := hmono.1
        have hhs' : ∀ h ∈ hs, h ∈ s.2.1 := hmono.2.1
        have hcur : ∀ e ∈ next, e ∈ s.1 := gahGo_cur_visited hist next _
        have hv'U : ∀ e ∈ s.1, e ∈ U := by
          intro e he
          rcases gahGo_visited_sub hist next _ e he with h | h
          · exact hvU e h
          · exact hnU e h
        have hn'U : ∀ e ∈ s.2.2, e ∈ U := by
          intro e he
          rcases gahGo_next_sub hist next _ e he with h | ⟨e', _, hpe⟩
          · cases h
          · exact hU e (List.mem_of_mem_filter hpe)
        have hrec' : ∀ e ∈ s.1, e.eventHash ∈ s.2.1 ∧
            ∀ h ∈ e.parentHash, h ∈ s.2.1 :=
          gahGo_records hist next _ hrec
        have hcl' : ∀ e ∈ s.1, ∀ p ∈ parentsOf hist e,
            p ∈ s.1 ∨ p ∈ s.2.2 := by
          refine gahGo_closure hist next _ ?_
          intro e he p hp
          rcases hcl e he p hp with h | h
          · exact Or.inl h
          · exact Or.inr (Or.inl h)
        have hnd' : s.1.Nodup := gahGo_vis_nodup hist next _ hnd
        have hmeas : (U.filter (fun e => e ∉ s.1)).length + 2 ≤ n := by
          have hlt := length_filter_not_mem_lt U vis s.1 hvis' e0
            (hnU e0 he0) he0n (hcur e0 he0)
          omega
        obtain ⟨c1, c2, c3, c4, c5, c6, c7⟩ :=
          ih s.2.2 s.1 s.2.1 hnd' hv'U hn'U hrec' hcl' hmeas
        refine ⟨?_, ?_, c3, c4, c5, c6, ?_⟩
        · intro e he
          exact c1 e (hvis' e he)
        · intro e he
          exact c1 e (hcur e he)
        · intro h hh
          exact c7 h (hhs' h hh)

/-- Whatever the fuel, the `_getAncestorHashes` loop only visits events
reachable backward from the roots and only records hashes the Committer
specification admits. -/
theorem gahLoop_sound (hist : List Event) (xs : List Event) :
    ∀ (fuel : Nat) (next vis : List Event) (hs : List String),
      (∀ e ∈ vis, ∃ x ∈ xs, reachesBack hist x e) →
      (∀ e ∈ next, ∃ x ∈ xs, reachesBack hist x e) →
      (∀ h ∈ hs, specCommittedHashes hist xs h) →
      (∀ e ∈ (gahLoop hist fuel next (vis, hs)).1,
        ∃ x ∈ xs, reachesBack hist x e) ∧
      (∀ h ∈ (gahLoop hist fuel next (vis, hs)).2,
        specCommittedHashes hist xs h) := by
  intro fuel
  induction fuel with
  | zero => intro next vis hs h1 _ h3; exact ⟨h1, h3⟩
  | succ n ih =>
    intro next vis hs h1 h2 h3
    unfold gahLoop
    split
    · exact ⟨h1, h3⟩
    · dsimp only
      have hgo : gahStep hist next (vis, hs) = gahGo hist next (vis, hs, []) :=
        rfl
      rw [hgo]
      refine ih _ _ _ ?_ ?_ ?_
      · intro e he
        rcases gahGo_visited_sub hist next _ e he with h | h
        · exact h1 e h
        · exact h2 e h
      · intro e he
        rcases gahGo_next_sub hist next _ e he with h | ⟨e', he', hpe⟩
        · cases h
        · obtain ⟨x, hx, hr⟩ := h2 e' he'
          exact ⟨x, hx, Relation.ReflTransGen.tail hr hpe⟩
      · intro h hh
        rcases gahGo_hashes_sub hist next _ h hh with h1' | ⟨e, he, hcase⟩
        · exact h3 h h1'
        · obtain ⟨x, hx, hr⟩ := h2 e he
          exact ⟨x, hx, e, hr, hcase⟩

/-- The root fold of `_getAncestorHashes` preserves all invariants: the
visited set stays duplicate-free, inside the universe, hash-recorded,
parent-closed and sound, while the processed roots become visited and the
hash set grows soundly. -/
theorem gah_fold_props (hist : List Event) (U : List Event)
    (hU : ∀ e ∈ hist, e ∈ U) (F : Nat) (hF : U.length + 2 ≤ F)
    (roots : List Event) :
    ∀ (l : List Event) (st : List Event × List String),
      (∀ x ∈ l, x ∈ U) →
      (∀ x ∈ l, x ∈ roots) →
      st.1.Nodup →
      (∀ e ∈ st.1, e ∈ U) →
      (∀ e ∈ st.1, e.eventHash ∈ st.2 ∧ ∀ h ∈ e.parentHash, h ∈ st.2) →
      (∀ e ∈ st.1, ∀ p ∈ parentsOf hist e, p ∈ st.1) →
      (∀ e ∈ st.1, ∃ x ∈ roots, reachesBack hist x e) →
      (∀ h ∈ st.2, specCommittedHashes hist roots h) →
      (∀ e ∈ (l.foldl (fun st x => gahLoop hist F [x] st) st).1,
        e.eventHash ∈ (l.foldl (fun st x => gahLoop hist F [x] st) st).2 ∧
        ∀ h ∈ e.parentHash,
          h ∈ (l.foldl (fun st x => gahLoop hist F [x] st) st).2) ∧
      (∀ e ∈ (l.foldl (fun st x => gahLoop hist F [x] st) st).1,
        ∀ p ∈ parentsOf hist e,
          p ∈ (l.foldl (fun st x => gahLoop hist F [x] st) st).1) ∧
      (∀ x ∈ l, x ∈ (l.foldl (fun st x => gahLoop hist F [x] st) st).1) ∧
      (∀ e ∈ st.1, e ∈ (l.foldl (fun st x => gahLoop hist F [x] st) st).1) ∧
      (∀ h ∈ st.2, h ∈ (l.foldl (fun st x => gahLoop hist F [x] st) st).2) ∧
      (∀ e ∈ (l.foldl (fun st x => gahLoop hist F [x] st) st).1,
        ∃ x ∈ roots, reachesBack hist x e) ∧
      (∀ h ∈ (l.foldl (fun st x => gahLoop hist F [x] st) st).2,
        specCommittedHashes hist roots h) := by
  intro l
  induction l with
  | nil =>
    intro st _ _ _ _ hrec hcl hsv hsh
    exact ⟨hrec, hcl, fun x hx => absurd hx (List.not_mem_nil x),
      fun e he => he, fun h hh => hh, hsv, hsh⟩
  | cons x t ih =>
    intro st hlU hlr hnd hvU hrec hcl hsv hsh
    rw [List.foldl_cons]
    obtain ⟨vis, hs⟩ := st
    have hxU : x ∈ U := hlU x (List.mem_cons_self x t)
    have hmeas : (U.filter (fun e => e ∉ vis)).length + 2 ≤ F := by
      have := length_filter_le_of_imp U (fun _ => true)
        (fun e => decide (e ∉ vis)) (fun a _ => rfl)
      simp only [List.filter_true] at this
      omega
    obtain ⟨c1, c2, c3, c4, c5, c6, c7⟩ :=
      gahLoop_closed hist U hU F [x] vis hs hnd hvU
        (fun e he => by rw [List.mem_singleton.mp he]; exact hxU) hrec
        (fun e he p hp => Or.inl (hcl e he p hp)) hmeas
    obtain ⟨s1, s2⟩ := gahLoop_sound hist roots F [x] vis hs hsv
      (fun e he => ⟨x, hlr x (List.mem_cons_self x t),
        by rw [List.mem_singleton.mp he]; exact Relation.ReflTransGen.refl⟩)
      hsh
    obtain ⟨d1, d2, d3, d4, d5, d6, d7⟩ :=
      ih (gahLoop hist F [x] (vis, hs))
        (fun y hy => hlU y (List.mem_cons_of_mem x hy))
        (fun y hy => hlr y (List.mem_cons_of_mem x hy)) c5 c6 c3 c4 s1 s2
    refine ⟨d1, d2, ?_, ?_, ?_, d6, d7⟩
    · intro y hy
      rcases List.mem_cons.mp hy with rfl | hyt
      · exact d4 y (c2 y (List.mem_singleton.mpr rfl))
      · exact d3 y hyt
    · intro e he
      exact d4 e (c1 e he)
    · intro h hh
      exact d5 h (c7 h hh)

/-- `_getAncestorHashes` computes exactly the Committer specification's
committed hash set: all hashes of events reachable backward through
`_parents` from some X, plus every hash those events list in `parentHash`. -/
theorem getAncestorHashes_iff (hist : List Event) (xs : List Event) :
    ∀ h, h ∈ getAncestorHashes hist xs ↔ specCommittedHashes hist xs h := by
  have hU : ∀ e ∈ hist, e ∈ xs ++ hist := fun e he => List.mem_append_right _ he
  have hF : (xs ++ hist).length + 2 ≤ hist.length + xs.length + 2 := by
    simp [List.length_append]
    omega
  obtain ⟨d1, d2, d3, d4, d5, d6, d7⟩ :=
    gah_fold_props hist (xs ++ hist) hU (hist.length + xs.length + 2) hF xs
      xs ([], []) (fun x hx => List.mem_append_left _ hx) (fun x hx => hx)
      List.nodup_nil (fun e he => absurd he (List.not_mem_nil e))
      (fun e he => absurd he (List.not_mem_nil e))
      (fun e he => absurd he (List.not_mem_nil e))
      (fun e he => absurd he (List.not_mem_nil e))
      (fun h hh => absurd hh (List.not_mem_nil h))
  intro h
  constructor
  · intro hmem
    exact d7 h hmem
  · rintro ⟨x, hx, e, hre, hcase⟩
    have hxin := d3 x hx
    have hein : e ∈ (xs.foldl
        (fun st x => gahLoop hist (hist.length + xs.length + 2) [x] st)
        ([], [])).1 := by
      clear hcase
      induction hre with
      | refl => exact hxin
      | tail hab hstep ih2 => exact d2 _ ih2 _ hstep
    obtain ⟨r1, r2⟩ := d1 e hein
    rcases hcase with rfl | hph
    · exact r1
    · exact r2 h hph

/-- An event of a tail list belongs to the snapshot. -/
theorem mem_hist_of_mem_tails (hist : List Event) (el : String) (e : Event)
    (h : e ∈ tailsOf hist el) : e ∈ hist :=
  List.mem_of_mem_filter h

/-- Structure of a successful, non-trivial `_findMergeEventProof` run. -/
theorem findMergeEventProof_some_structure (hist : List Event)
    (electors : List String) (pairs : List ProofPair)
    (h : findMergeEventProof hist electors = some pairs) (hne : pairs ≠ []) :
    ∃ xBy yBy,
      findMergeEventProofCandidates hist electors = some (xBy, yBy) ∧
      mkProofPairs xBy yBy (twoThirdsMajority electors.length)
        (findConsensusMergeEventProof hist electors xBy yBy) = some pairs := by
  unfold findMergeEventProof at h
  cases hc : findMergeEventProofCandidates hist electors with
  | none =>
    rw [hc] at h
    injection h with h1
    exact absurd h1.symm hne
  | some c =>
    obtain ⟨xBy, yBy⟩ := c
    rw [hc] at h
    dsimp only at h
    split at h
    · injection h with h1
      exact absurd h1.symm hne
    · split at h
      · injection h with h1
        exact absurd h1.symm hne
      · exact ⟨xBy, yBy, rfl, h⟩

/-- Structure of every pair built by the Committer pairing. -/
theorem mkProofPairs_mem (xBy : List (String × XInfo))
    (yBy : List (String × YInfo)) (s : Nat) :
    ∀ (ys : List Event) (pairs : List ProofPair),
      mkProofPairs xBy yBy s ys = some pairs →
      ∀ pr ∈ pairs, ∃ xi d,
        alookup xBy pr.y.creator = some xi ∧ xDescOf yBy pr.y = some d ∧
        pr.x = xi.x ∧ pr.y ∈ ys ∧
        pr.proof = (if (flattenDescendants xi.x d).isEmpty ∧ s = 1
          then [xi.x] else flattenDescendants xi.x d) := by
  intro ys
  induction ys with
  | nil =>
    intro pairs h pr hpr
    simp only [mkProofPairs] at h
    cases h
    cases hpr
  | cons y rest ih =>
    intro pairs h pr hpr
    simp only [mkProofPairs] at h
    cases hx : alookup xBy y.creator with
    | none => rw [hx] at h; simp at h
    | some xi =>
      cases hd : xDescOf yBy y with
      | none => rw [hx, hd] at h; simp at h
      | some d =>
        rw [hx, hd] at h
        cases hrest : mkProofPairs xBy yBy s rest with
        | none => rw [hrest] at h; simp at h
        | some ps =>
          rw [hrest] at h
          simp only [Option.some.injEq] at h
          subst h
          rcases List.mem_cons.mp hpr with rfl | ht
          · exact ⟨xi, d, hx, hd, rfl, List.mem_cons_self _ _, rfl⟩
          · obtain ⟨xi', d', a1, a2, a3, a4, a5⟩ := ih ps hrest pr ht
            exact ⟨xi', d', a1, a2, a3, List.mem_cons_of_mem _ a4, a5⟩

/-- Every decided X is an event of the snapshot. -/
theorem consensusXs_sub_hist (hist : List Event) (electors : List String) :
    ∀ x ∈ consensusXs hist electors, x ∈ hist := by
  intro x hx
  unfold consensusXs at hx
  cases hp : findMergeEventProof hist electors with
  | none => rw [hp] at hx; cases hx
  | some pairs =>
    rw [hp] at hx
    obtain ⟨pr, hpr, hxeq⟩ := List.mem_map.mp hx
    by_cases hne : pairs = []
    · subst hne; cases hpr
    · obtain ⟨xBy, yBy, hc, hmk⟩ :=
        findMergeEventProof_some_structure hist electors pairs hp hne
      obtain ⟨xi, d, ha, _, hprx, _⟩ := mkProofPairs_mem xBy yBy _ _ pairs hmk
        pr hpr
      obtain ⟨hxeq2, _⟩ := findMergeEventProofCandidates_eq hist electors xBy
        yBy hc
      have := buildXBy_lookup_some hist _ pr.y.creator xi (by rw [← hxeq2]; exact ha)
      rw [← hxeq, hprx]
      exact mem_hist_of_mem_tails hist pr.y.creator xi.x
        (this.1 ▸ List.mem_cons_self _ _)

/-- A non-null `findConsensus` result exposes its proof pairs. -/
theorem findConsensus_some_structure (hist : List Event)
    (electors : List String) (res : ConsensusResult)
    (h : findConsensus hist electors = some (some res)) :
    ∃ pairs, findMergeEventProof hist electors = some pairs ∧ pairs ≠ [] ∧
      res.eventHashes = getAncestorHashes hist (pairs.map (·.x)) ∧
      res.consensusProofHashes = jsUniq (pairs.foldl
        (fun acc p => acc ++ p.proof.map (·.eventHash)) []) ∧
      consensusXs hist electors = pairs.map (·.x) := by
  unfold findConsensus at h
  cases hp : findMergeEventProof hist electors with
  | none => rw [hp] at h; cases h
  | some pairs =>
    rw [hp] at h
    dsimp only at h
    split at h
    · cases h
    · rename_i hne
      injection h with h1
      injection h1 with h2
      refine ⟨pairs, rfl, by simpa using hne, ?_, ?_, ?_⟩
      · rw [← h2]
      · rw [← h2]
      · unfold consensusXs
        rw [hp]

/-- Snapshot events are determined by their hash when hashes are unique. -/
theorem hash_inj (hist : List Event) (hnd : hashesNodup hist) {a b : Event}
    (ha : a ∈ hist) (hb : b ∈ hist) (h : a.eventHash = b.eventHash) :
    a = b :=
  List.inj_on_of_nodup_map hnd ha hb h

/-- Backward reachability stays at the start or inside the snapshot. -/
theorem reachesBack_mem (hist : List Event) (x e : Event)
    (h : reachesBack hist x e) : e = x ∨ e ∈ hist := by
  induction h with
  | refl => exact Or.inl rfl
  | tail hab hstep ih => exact Or.inr (List.mem_of_mem_filter hstep)

/-- C6: for every non-null result, `eventHashes` is exactly the deduplicated
set the Committer specification describes — all ancestor hashes reachable
through `_parents` from every paired X together with every hash those
ancestors list in `parentHash` — and in particular the `parentHash` of any
committed merge event of the snapshot is contained in `eventHashes`. -/
theorem eventHashes_characterization (hist : List Event)
    (electors : List String) (res : ConsensusResult)
    (hnd : hashesNodup hist)
    (h : findConsensus hist electors = some (some res)) :
    (∀ hsh, hsh ∈ res.eventHashes ↔
      specCommittedHashes hist (consensusXs hist electors) hsh) ∧
    res.eventHashes.Nodup ∧
    (∀ e ∈ hist, e.eventHash ∈ res.eventHashes →
      ∀ hsh ∈ e.parentHash, hsh ∈ res.eventHashes) := by
  obtain ⟨pairs, hp, hne, heq, hcph, hxeq⟩ :=
    findConsensus_some_structure hist electors res h
  have hiff : ∀ hsh, hsh ∈ res.eventHashes ↔
      specCommittedHashes hist (consensusXs hist electors) hsh := by
    intro hsh
    rw [heq, hxeq]
    exact getAncestorHashes_iff hist (pairs.map (·.x)) hsh
  refine ⟨hiff, by rw [heq]; exact getAncestorHashes_nodup hist _, ?_⟩
  intro e he hmem hsh hph
  obtain ⟨x, hx, e', hre, hcase⟩ := (hiff e.eventHash).mp hmem
  have hxh : x ∈ hist := consensusXs_sub_hist hist electors x hx
  have he' : e' ∈ hist := by
    rcases reachesBack_mem hist x e' hre with rfl | h1
    · exact hxh
    · exact h1
  rcases hcase with heq2 | hph2
  · have : e = e' := hash_inj hist hnd he he' heq2
    subst this
    exact (hiff hsh).mpr ⟨x, hx, e, hre, Or.inr hph⟩
  · have hpe : e ∈ parentsOf hist e' := by
      unfold parentsOf
      apply List.mem_filter.mpr
      exact ⟨he, by simpa using hph2⟩
    have hre2 : reachesBack hist x e := Relation.ReflTransGen.tail hre hpe
    exact (hiff hsh).mpr ⟨x, hx, e, hre2, Or.inr hph⟩

/-- Witness for the committed-hash characterization at the S1 input. -/
theorem eventHashes_characterization_witness :
    specCommittedHashes s1hist (consensusXs s1hist ["A"]) "a1" := by
  have h := eventHashes_characterization s1hist ["A"] ⟨["a1"], ["a1"]⟩
    (by unfold hashesNodup; decide) (by decide)
  exact (h.1 "a1").mp (by decide)

/-- Every `_parents` entry is an event of the snapshot. -/
theorem mem_parentsOf (hist : List Event) (e p : Event)
    (h : p ∈ parentsOf hist e) : p ∈ hist :=
  List.mem_of_mem_filter h

/-- A resolved tree parent is one of the event's `_parents`. -/
theorem treeParent_mem_parents (hist : List Event) (c p : Event)
    (h : treeParent hist c = some p) : p ∈ parentsOf hist c := by
  unfold treeParent at h
  cases ht : c.treeHash with
  | none => rw [ht] at h; cases h
  | some t =>
    rw [ht] at h
    exact List.mem_of_find?_eq_some h

/-- Every tree child is a snapshot event whose resolved tree parent is the
given event. -/
theorem treeChildren_mem (hist : List Event) (electors : List String)
    (e c : Event) (h : c ∈ treeChildren hist electors e) :
    c ∈ hist ∧ treeParent hist c = some e := by
  unfold treeChildren at h
  have hm := List.mem_filter.mp h
  refine ⟨hm.1, ?_⟩
  have h2 := hm.2
  simp only [Bool.and_eq_true, beq_iff_eq, decide_eq_true_eq] at h2
  exact h2.2

/-- Every branch tail is authored by its elector. -/
theorem tailsOf_creator (hist : List Event) (el : String) (t : Event)
    (h : t ∈ tailsOf hist el) : t.creator = el := by
  unfold tailsOf at h
  have hm := List.mem_filter.mp h
  have h2 := hm.2
  simp only [Bool.and_eq_true, beq_iff_eq] at h2
  exact h2.1

/-- Tree-parent creator consistency: the data model behind
`_getElectorBranches` (line 101) has `treeHash` name the creator's own prior
merge event, so a resolved tree parent shares the event's creator. -/
def treeCreatorWF (hist : List Event) : Prop :=
  ∀ e ∈ hist, ∀ p ∈ (treeParent hist e).toList, p.creator = e.creator

/-- Using tree-parent creator consistency on a resolved tree parent. -/
theorem treeCreatorWF_apply (hist : List Event) (hwf : treeCreatorWF hist)
    (e p : Event) (he : e ∈ hist) (h : treeParent hist e = some p) :
    p.creator = e.creator := by
  apply hwf e he p
  rw [h]
  exact List.mem_singleton.mpr rfl

/-- Soundness invariant of a `descendants` map accumulated while walking
backward from `z`: every recorded event lies in the snapshot, is `z` or a
snapshot ancestor of `z`, and has an actual parent carrying the entry's key
hash. -/
def dmapOK (hist : List Event) (z : Event) (d : DMap) : Prop :=
  ∀ p ∈ d, ∀ e ∈ p.2,
    e ∈ hist ∧ reachesBack hist z e ∧
      ∃ q ∈ parentsOf hist e, q.eventHash = p.1

/-- The empty descendants map is sound for any anchor. -/
theorem dmapOK_nil (hist : List Event) (z : Event) : dmapOK hist z [] := by
  intro p hp
  cases hp

/-- Descendants-map soundness transports down to any event that can reach
the old anchor backward. -/
theorem dmapOK_mono (hist : List Event) (z z' : Event) (d : DMap)
    (h : dmapOK hist z d) (hz : reachesBack hist z' z) : dmapOK hist z' d := by
  intro p hp e he
  obtain ⟨h1, h2, h3⟩ := h p hp e he
  exact ⟨h1, Relation.ReflTransGen.trans hz h2, h3⟩

/-- Membership after a JavaScript object assignment: an entry of the updated
object is an old entry or the assigned pair. -/
theorem aset_mem {β : Type} (l : List (String × β)) (k : String) (v : β)
    (p : String × β) (h : p ∈ aset l k v) : p ∈ l ∨ p = (k, v) := by
  unfold aset at h
  split at h
  · obtain ⟨q, hq, he⟩ := List.mem_map.mp h
    by_cases hk : (q.1 == k) = true
    · rw [if_pos hk] at he
      exact Or.inr he.symm
    · rw [if_neg hk] at he
      exact Or.inl (he ▸ hq)
  · rcases List.mem_append.mp h with h1 | h2
    · exact Or.inl h1
    · exact Or.inr (List.mem_singleton.mp h2)

/-- One `_findDescendantsInPath` level preserves descendants-map soundness:
new entries record frontier events under an actual parent's hash, and the
parents queued for the next level are snapshot ancestors of the anchor. -/
theorem fdipStep_ok (hist : List Event) (ancKeys : List String) (z : Event)
    (cur : List Event) (d : DMap)
    (hcur : ∀ e ∈ cur, e ∈ hist ∧ reachesBack hist z e)
    (hd : dmapOK hist z d) :
    dmapOK hist z (fdipStep hist ancKeys cur d).1 ∧
      ∀ p ∈ (fdipStep hist ancKeys cur d).2,
        p ∈ hist ∧ reachesBack hist z p := by
  unfold fdipStep
  refine foldl_inv_mem
    (fun (acc : DMap × List Event) =>
      dmapOK hist z acc.1 ∧ ∀ p ∈ acc.2, p ∈ hist ∧ reachesBack hist z p)
    (fun e => e ∈ hist ∧ reachesBack hist z e)
    _ cur hcur (d, []) ⟨hd, by intro p hp; cases hp⟩ ?_
  intro acc ev hev hP
  dsimp only
  split
  · exact hP
  refine foldl_inv_mem
    (fun (acc2 : DMap × List Event) =>
      dmapOK hist z acc2.1 ∧ ∀ p ∈ acc2.2, p ∈ hist ∧ reachesBack hist z p)
    (fun q => q ∈ parentsOf hist ev)
    _ (parentsOf hist ev) (fun q hq => hq) acc hP ?_
  intro acc2 q hq hP2
  dsimp only
  split
  · rename_i lst heq
    split
    · exact hP2
    refine ⟨?_, hP2.2⟩
    intro p hp e he
    rcases aset_mem _ _ _ p hp with hold | hnew
    · exact hP2.1 p hold e he
    · subst hnew
      rcases List.mem_append.mp he with h1 | h2
      · exact hP2.1 (q.eventHash, lst) (alookup_mem heq) e h1
      · rw [List.mem_singleton] at h2
        subst h2
        exact ⟨hev.1, hev.2, q, hq, rfl⟩
  · rename_i heq
    constructor
    · intro p hp e he
      rcases List.mem_append.mp hp with hold | hnew
      · exact hP2.1 p hold e he
      · rw [List.mem_singleton] at hnew
        subst hnew
        rw [List.mem_singleton] at he
        subst he
        exact ⟨hev.1, hev.2, q, hq, rfl⟩
    · intro p hp
      rcases List.mem_append.mp hp with hold | hnew
      · exact hP2.2 p hold
      · rw [List.mem_singleton] at hnew
        subst hnew
        exact ⟨List.mem_of_mem_filter hq, Relation.ReflTransGen.tail hev.2 hq⟩

/-- The `_findDescendantsInPath` loop preserves descendants-map soundness. -/
theorem fdipLoop_ok (hist : List Event) (ancKeys : List String) (z : Event) :
    ∀ (fuel : Nat) (next : List Event) (d : DMap),
      (∀ e ∈ next, e ∈ hist ∧ reachesBack hist z e) →
      dmapOK hist z d →
      dmapOK hist z (fdipLoop hist ancKeys fuel next d) := by
  intro fuel
  induction fuel with
  | zero => intro next d _ hd; exact hd
  | succ n ih =>
    intro next d hnext hd
    unfold fdipLoop
    dsimp only
    split
    · exact hd
    · exact ih _ _ (fdipStep_ok hist ancKeys z next d hnext hd).2
        (fdipStep_ok hist ancKeys z next d hnext hd).1

/-- `_findDescendantsInPath` from an event reachable backward from the anchor
preserves descendants-map soundness. -/
theorem findDescendantsInPath_ok (hist : List Event) (z y : Event)
    (d : DMap) (ancKeys : List String) (hy : y ∈ hist)
    (hr : reachesBack hist z y) (hd : dmapOK hist z d) :
    dmapOK hist z (findDescendantsInPath hist y d ancKeys) := by
  unfold findDescendantsInPath
  apply fdipLoop_ok hist ancKeys z _ _ d _ hd
  intro e he
  rw [List.mem_singleton] at he
  subst he
  exact ⟨hy, hr⟩

/-- The tree-descendant walk of `_findDiversePedigreeMergeEvent`: a returned
Y reaches the starting tree descendant backward, shares its creator (under
tree-parent creator consistency), lies in the snapshot, and carries a sound
descendants map. -/
theorem fdpmLoop_walk (hist : List Event) (electors : List String) (s : Nat)
    (x : Event) (ancKeys : List String) (hwf : treeCreatorWF hist) :
    ∀ (fuel : Nat) (td : Event) (d : DMap) (y : Event) (d' : DMap),
      td ∈ hist → dmapOK hist td d →
      fdpmLoop hist electors s x ancKeys fuel td d = some (y, d') →
      reachesBack hist y td ∧ y.creator = td.creator ∧ y ∈ hist ∧
        dmapOK hist y d' := by
  intro fuel
  induction fuel with
  | zero => intro td d y d' _ _ h; cases h
  | succ n ih =>
    intro td d y d' htd hd h
    unfold fdpmLoop at h
    dsimp only at h
    split at h
    · injection h with h1
      injection h1 with h2 h3
      subst h2
      subst h3
      exact ⟨Relation.ReflTransGen.refl, rfl, htd,
        findDescendantsInPath_ok hist td td d ancKeys htd
          Relation.ReflTransGen.refl hd⟩
    · split at h
      · rename_i c heq
        have hc := treeChildren_mem hist electors td c
          (heq ▸ List.mem_singleton.mpr rfl)
        have hpar : td ∈ parentsOf hist c :=
          treeParent_mem_parents hist c td hc.2
        have hstep : reachesBack hist c td :=
          Relation.ReflTransGen.single hpar
        have hd1 : dmapOK hist c (findDescendantsInPath hist td d ancKeys) :=
          dmapOK_mono hist td c _
            (findDescendantsInPath_ok hist td td d ancKeys htd
              Relation.ReflTransGen.refl hd) hstep
        obtain ⟨h1, h2, h3, h4⟩ := ih c _ y d' hc.1 hd1 h
        refine ⟨Relation.ReflTransGen.tail h1 hpar, ?_, h3, h4⟩
        rw [h2]
        exact (treeCreatorWF_apply hist hwf c td hc.1 hc.2).symm
      · cases h

/-- `_findDiversePedigreeMergeEvent`: a returned Y reaches X backward, shares
X's creator (under tree-parent creator consistency), lies in the snapshot
whenever X does, and carries a sound descendants map. -/
theorem findDiversePedigreeMergeEvent_walk (hist : List Event)
    (electors : List String) (s : Nat) (x : Event) (d : DMap)
    (ancKeys : List String) (hwf : treeCreatorWF hist) (hx : x ∈ hist)
    (hd : dmapOK hist x d) (y : Event) (d' : DMap)
    (h : findDiversePedigreeMergeEvent hist electors s x d ancKeys
      = some (y, d')) :
    reachesBack hist y x ∧ y.creator = x.creator ∧ y ∈ hist ∧
      dmapOK hist y d' := by
  unfold findDiversePedigreeMergeEvent at h
  split at h
  · injection h with h1
    injection h1 with h2 h3
    subst h2
    subst h3
    exact ⟨Relation.ReflTransGen.refl, rfl, hx, hd⟩
  · split at h
    · rename_i c heq
      have hc := treeChildren_mem hist electors x c
        (heq ▸ List.mem_singleton.mpr rfl)
      have hpar : x ∈ parentsOf hist c :=
        treeParent_mem_parents hist c x hc.2
      have hstep : reachesBack hist c x :=
        Relation.ReflTransGen.single hpar
      obtain ⟨h1, h2, h3, h4⟩ := fdpmLoop_walk hist electors s x ancKeys hwf
        _ c d y d' hc.1 (dmapOK_mono hist x c d hd hstep) h
      refine ⟨Relation.ReflTransGen.tail h1 hpar, ?_, h3, h4⟩
      rw [h2]
      exact (treeCreatorWF_apply hist hwf c x hc.1 hc.2).symm
    · cases h

/-- Every entry of the built X map records its elector's unique tail, with
`_initDescendants` seeded with the tail's hash. -/
theorem buildXBy_mem_entry (hist : List Event) :
    ∀ (ewt : List String) (el : String) (xi : XInfo),
      (el, xi) ∈ buildXBy hist ewt →
      tailsOf hist el = [xi.x] ∧ xi.initDesc = [(xi.x.eventHash, [])] := by
  intro ewt
  induction ewt with
  | nil => intro el xi h; cases h
  | cons e t ih =>
    intro el xi h
    unfold buildXBy at h
    cases ht : tailsOf hist e with
    | nil => rw [ht] at h; exact ih el xi h
    | cons t1 rest =>
      cases rest with
      | nil =>
        rw [ht] at h
        rcases List.mem_cons.mp h with he | hrest
        · injection he with e1 e2
          subst e1
          subst e2
          exact ⟨ht, rfl⟩
        · exact ih el xi hrest
      | cons t2 r2 => rw [ht] at h; exact ih el xi h

/-- A membership and a lookup of the built X map at the same elector agree. -/
theorem buildXBy_entry_unique (hist : List Event) (ewt : List String)
    (el : String) (xi xi' : XInfo) (h1 : (el, xi) ∈ buildXBy hist ewt)
    (h2 : alookup (buildXBy hist ewt) el = some xi') : xi = xi' := by
  obtain ⟨t1, d1⟩ := buildXBy_mem_entry hist ewt el xi h1
  obtain ⟨t2, d2⟩ := buildXBy_lookup_some hist ewt el xi' h2
  have hx : xi.x = xi'.x := by
    have h3 := t1.symm.trans t2
    injection h3
  cases xi with
  | mk x1 i1 =>
    cases xi' with
    | mk x2 i2 =>
      dsimp only at hx d1 d2
      subst hx
      rw [d1, d2]

/-- A defined `_xDescendants` read comes from a `yByElector` entry holding
exactly this Y event. -/
theorem xDescOf_entry (yBy : List (String × YInfo)) (y : Event) (d : DMap)
    (h : xDescOf yBy y = some d) :
    ∃ p ∈ yBy, p.2.y = y ∧ p.2.xDesc = d := by
  unfold xDescOf at h
  cases hf : yBy.reverse.find? (fun p => p.2.y == y) with
  | none => rw [hf] at h; simp at h
  | some p =>
    rw [hf] at h
    simp only [Option.map_some', Option.some.injEq] at h
    have hm := List.mem_reverse.mp (List.mem_of_find?_eq_some hf)
    have hy := List.find?_some hf
    simp only [beq_iff_eq] at hy
    exact ⟨p, hm, hy, h⟩

/-- Membership in the `_flattenDescendants` level fold: a gathered event was
recorded in the descendants map under some frontier event's hash. -/
theorem flattenStep_go_mem (d : DMap) :
    ∀ (cur acc : List Event) (e : Event),
      e ∈ cur.foldl
        (fun acc ev => acc ++ ((alookup d ev.eventHash).getD [])) acc →
      e ∈ acc ∨
        ∃ ev ∈ cur, ∃ lst, alookup d ev.eventHash = some lst ∧ e ∈ lst := by
  intro cur
  induction cur with
  | nil => intro acc e h; exact Or.inl h
  | cons ev rest ih =>
    intro acc e h
    rw [List.foldl_cons] at h
    rcases ih _ e h with hacc | ⟨ev', hm, lst, hl, he⟩
    · rcases List.mem_append.mp hacc with h1 | h2
      · exact Or.inl h1
      · cases hlk : alookup d ev.eventHash with
        | none =>
          rw [hlk] at h2
          simp only [Option.getD_none] at h2
          cases h2
        | some lst =>
          rw [hlk] at h2
          simp only [Option.getD_some] at h2
          exact Or.inr ⟨ev, List.mem_cons_self _ _, lst, hlk, h2⟩
    · exact Or.inr ⟨ev', List.mem_cons_of_mem _ hm, lst, hl, he⟩

/-- Membership in one `_flattenDescendants` level. -/
theorem flattenStep_mem (d : DMap) (cur : List Event) (e : Event)
    (h : e ∈ flattenStep d cur) :
    ∃ ev ∈ cur, ∃ lst, alookup d ev.eventHash = some lst ∧ e ∈ lst := by
  unfold flattenStep at h
  rcases flattenStep_go_mem d cur [] e h with h0 | hr
  · cases h0
  · exact hr

/-- The `_flattenDescendants` loop over a sound descendants map collects only
events between the start and the map's anchor: descendants of the start and
ancestors of the anchor. -/
theorem flattenLoop_sound (hist : List Event) (x y : Event) (d : DMap)
    (hnd : hashesNodup hist) (hok : dmapOK hist y d) :
    ∀ (fuel : Nat) (next res : List Event),
      (∀ e ∈ next, reachesBack hist e x ∧ e ∈ hist) →
      (∀ e ∈ res, reachesBack hist e x ∧ reachesBack hist y e) →
      ∀ e ∈ flattenLoop d fuel next res,
        reachesBack hist e x ∧ reachesBack hist y e := by
  intro fuel
  induction fuel with
  | zero => intro next res _ hres e he; exact hres e he
  | succ n ih =>
    intro next res hnext hres e he
    unfold flattenLoop at he
    dsimp only at he
    split at he
    · exact hres e he
    · have hstep : ∀ e' ∈ jsUniq (flattenStep d next),
          (reachesBack hist e' x ∧ e' ∈ hist) ∧ reachesBack hist y e' := by
        intro e' he'
        rw [jsUniq_mem] at he'
        obtain ⟨ev, hev, lst, hlk, hel⟩ := flattenStep_mem d next e' he'
        obtain ⟨hh, hyr, q, hq, hqh⟩ :=
          hok (ev.eventHash, lst) (alookup_mem hlk) e' hel
        have hevp := hnext ev hev
        have hqe : q = ev :=
          hash_inj hist hnd (mem_parentsOf hist e' q hq) hevp.2 hqh
        exact ⟨⟨Relation.ReflTransGen.head (hqe ▸ hq) hevp.1, hh⟩, hyr⟩
      refine ih _ _ (fun e' he' => (hstep e' he').1) ?_ e he
      intro e' he'
      rcases List.mem_append.mp he' with h1 | h2
      · exact hres e' h1
      · exact ⟨(hstep e' h2).1.1, (hstep e' h2).2⟩

/-- `_flattenDescendants` from `x` over a sound descendants map anchored at
`y` returns only descendants of `x` that are ancestors of `y` (or the
endpoints themselves). -/
theorem flattenDescendants_sound (hist : List Event) (x y : Event) (d : DMap)
    (hnd : hashesNodup hist) (hok : dmapOK hist y d) (hx : x ∈ hist) :
    ∀ e ∈ flattenDescendants x d,
      reachesBack hist e x ∧ reachesBack hist y e := by
  intro e he
  unfold flattenDescendants at he
  rw [jsUniq_mem] at he
  refine flattenLoop_sound hist x y d hnd hok _ [x] [] ?_ ?_ e he
  · intro e' he'
    rw [List.mem_singleton] at he'
    subst he'
    exact ⟨Relation.ReflTransGen.refl, hx⟩
  · intro e' he'
    cases he'

/-- Membership in the concatenation of the proof hashes of all pairs. -/
theorem mem_proofHashes_fold :
    ∀ (pairs : List ProofPair) (acc : List String) (hsh : String),
      hsh ∈ pairs.foldl
        (fun acc p => acc ++ p.proof.map (·.eventHash)) acc →
      hsh ∈ acc ∨ ∃ pr ∈ pairs, ∃ e ∈ pr.proof, e.eventHash = hsh := by
  intro pairs
  induction pairs with
  | nil => intro acc hsh hm; exact Or.inl hm
  | cons p rest ih =>
    intro acc hsh hm
    rw [List.foldl_cons] at hm
    rcases ih _ hsh hm with hacc | ⟨pr, hpr, e, he, heq⟩
    · rcases List.mem_append.mp hacc with h1 | h2
      · exact Or.inl h1
      · obtain ⟨e, he, heq⟩ := List.mem_map.mp h2
        exact Or.inr ⟨p, List.mem_cons_self _ _, e, he, heq⟩
    · exact Or.inr ⟨pr, List.mem_cons_of_mem _ hpr, e, he, heq⟩

/-- Each pair of a successful `_findMergeEventProof` run is geometrically
contained: the paired X (the creator's `xByElector` entry) is an ancestor of
the Y (or Y itself), and every proof event lies between them. -/
theorem proofPair_containment (hist : List Event) (electors : List String)
    (pairs : List ProofPair) (hnd : hashesNodup hist)
    (hwf : treeCreatorWF hist)
    (hp : findMergeEventProof hist electors = some pairs) :
    ∀ pr ∈ pairs, reachesBack hist pr.y pr.x ∧
      ∀ e ∈ pr.proof, reachesBack hist e pr.x ∧ reachesBack hist pr.y e := by
  intro pr hpr
  by_cases hne : pairs = []
  · subst hne; cases hpr
  obtain ⟨xBy, yBy, hc, hmk⟩ :=
    findMergeEventProof_some_structure hist electors pairs hp hne
  obtain ⟨hxeq, hyeq⟩ :=
    findMergeEventProofCandidates_eq hist electors xBy yBy hc
  obtain ⟨xi, d, ha, hxd, hprx, hys, hproof⟩ :=
    mkProofPairs_mem xBy yBy _ _ pairs hmk pr hpr
  obtain ⟨p, hpm, hpy, hpd⟩ := xDescOf_entry yBy pr.y d hxd
  obtain ⟨el', yi⟩ := p
  dsimp only at hpy hpd
  have hpm' : (el', yi) ∈
      buildYBy hist electors (twoThirdsMajority electors.length) xBy :=
    hyeq ▸ hpm
  obtain ⟨xi', hxm, hfd⟩ := buildYBy_mem hist electors _ xBy el' yi hpm'
  have hxm' : (el', xi') ∈ buildXBy hist (electorsWithTails hist electors) :=
    hxeq ▸ hxm
  obtain ⟨ht, hid⟩ := buildXBy_mem_entry hist _ el' xi' hxm'
  have hxh : xi'.x ∈ hist :=
    mem_hist_of_mem_tails hist el' xi'.x (ht ▸ List.mem_cons_self _ _)
  have hxc : xi'.x.creator = el' :=
    tailsOf_creator hist el' xi'.x (ht ▸ List.mem_cons_self _ _)
  obtain ⟨hreach, hcr, hyh, hok⟩ :=
    findDiversePedigreeMergeEvent_walk hist electors _ xi'.x [] _ hwf hxh
      (dmapOK_nil hist xi'.x) yi.y yi.xDesc hfd
  have hyc : pr.y.creator = el' := by
    rw [← hpy, hcr, hxc]
  have hxx : xi = xi' := by
    refine (buildXBy_entry_unique hist _ el' xi' xi hxm' ?_).symm
    rw [← hyc, ← hxeq]
    exact ha
  subst hxx
  have h1 : reachesBack hist pr.y pr.x := by
    rw [hprx, ← hpy]
    exact hreach
  refine ⟨h1, ?_⟩
  intro e he
  rw [hproof] at he
  have hokd : dmapOK hist pr.y d := by
    rw [← hpy, ← hpd]
    exact hok
  split at he
  · rw [List.mem_singleton] at he
    subst he
    exact ⟨hprx ▸ Relation.ReflTransGen.refl, hprx ▸ h1⟩
  · have := flattenDescendants_sound hist xi.x pr.y d hnd hokd hxh e he
    exact ⟨hprx ▸ this.1, this.2⟩

/-- C1: for every non-null result of `findConsensus` on a snapshot with
distinct event hashes and creator-consistent tree parents, the returned proof
pairs satisfy containment of commit: each returned Y's paired X (the
`xByElector` entry of Y's creator) is an ancestor of Y or Y itself, every
event of the pair's proof is a descendant of that X and an ancestor of the
paired Y (inclusively), and every hash of `consensusProofHashes` is the hash
of such a proof event of some pair. -/
theorem containment_of_commit (hist : List Event) (electors : List String)
    (res : ConsensusResult) (hnd : hashesNodup hist)
    (hwf : treeCreatorWF hist)
    (h : findConsensus hist electors = some (some res)) :
    ∃ pairs, findMergeEventProof hist electors = some pairs ∧
      (∀ pr ∈ pairs, reachesBack hist pr.y pr.x ∧
        ∀ e ∈ pr.proof,
          reachesBack hist e pr.x ∧ reachesBack hist pr.y e) ∧
      (∀ hsh ∈ res.consensusProofHashes,
        ∃ pr ∈ pairs, ∃ e ∈ pr.proof, e.eventHash = hsh) := by
  obtain ⟨pairs, hp, hne, _, hcph, _⟩ :=
    findConsensus_some_structure hist electors res h
  refine ⟨pairs, hp,
    proofPair_containment hist electors pairs hnd hwf hp, ?_⟩
  intro hsh hm
  rw [hcph, jsUniq_mem] at hm
  rcases mem_proofHashes_fold pairs [] hsh hm with h0 | hr
  · cases h0
  · exact hr

/-- Witness: the containment theorem applied to the single-elector snapshot
`a1 (tail) <- a2 <- a3`, whose hypotheses hold by evaluation. -/
theorem containment_of_commit_witness :
    hashesNodup s1hist ∧ treeCreatorWF s1hist ∧
    findConsensus s1hist ["A"] = some (some ⟨["a1"], ["a1"]⟩) ∧
    ∃ pairs, findMergeEventProof s1hist ["A"] = some pairs ∧
      (∀ pr ∈ pairs, reachesBack s1hist pr.y pr.x ∧
        ∀ e ∈ pr.proof,
          reachesBack s1hist e pr.x ∧ reachesBack s1hist pr.y e) ∧
      (∀ hsh ∈ (⟨["a1"], ["a1"]⟩ : ConsensusResult).consensusProofHashes,
        ∃ pr ∈ pairs, ∃ e ∈ pr.proof, e.eventHash = hsh) :=
  ⟨by unfold hashesNodup; decide, by unfold treeCreatorWF; decide, by decide,
   containment_of_commit s1hist ["A"] ⟨["a1"], ["a1"]⟩
     (by unfold hashesNodup; decide) (by unfold treeCreatorWF; decide)
     (by decide)⟩
